import Mathlib

set_option maxRecDepth 100000

/-!
Verification of the `blue_railroad_import` reconciliation engine.

This file is a shallow embedding, in Lean 4, of the core logic of the
`blue_railroad_import` Python package: token aggregation from chain-data
sources (`chain_data.py`), content-identifier derivation and normalization
(`models.py`, `thumbnail.py`), token/submission matching and the wikitext
field mutator (`submission.py`), the matching priority of the import run
(`importer.py`) and the token-page update policy (`token_page.py`).

Python strings are modelled as `List Char` (or `String` where convenient),
Python dicts as insertion-ordered association lists, and fallible code as
`Option`/`Except`.  External collaborators (the IPFS `cid` library, the
wiki transport, the local-timezone date formatter and the maybelle pin
check) are modelled explicitly where a claim depends on them and taken as
parameters otherwise.  Theorems `C1` .. `C10` settle the frozen claims.
-/

/-! ## Insertion-ordered dictionaries

Python dicts preserve insertion order; writing to an existing key keeps
its position, a new key is appended at the end. -/

/-- Look up a key in an insertion-ordered association list (Python `d.get(k)`). -/
def dget {κ α : Type} [DecidableEq κ] (d : List (κ × α)) (k : κ) : Option α :=
  match d with
  | [] => none
  | (k', v') :: t => if k' = k then some v' else dget t k

/-- Write a key in an insertion-ordered association list (Python `d[k] = v`):
an existing key keeps its position, a new key is appended. -/
def dset {κ α : Type} [DecidableEq κ] (d : List (κ × α)) (k : κ) (v : α) :
    List (κ × α) :=
  match d with
  | [] => [(k, v)]
  | (k', v') :: t => if k' = k then (k, v) :: t else (k', v') :: dset t k v

theorem dget_dset_self {κ α : Type} [DecidableEq κ] (d : List (κ × α)) (k : κ) (v : α) :
    dget (dset d k v) k = some v := by
  induction d with
  | nil => simp [dget, dset]
  | cons h t ih =>
    obtain ⟨k', v'⟩ := h
    by_cases hk : k' = k
    · simp [dget, dset, hk]
    · simp [dget, dset, hk, ih]

theorem dget_dset_ne {κ α : Type} [DecidableEq κ] (d : List (κ × α)) (k k' : κ) (v : α)
    (h : k ≠ k') : dget (dset d k v) k' = dget d k' := by
  have h' : k' ≠ k := Ne.symm h
  induction d with
  | nil => simp [dget, dset, h]
  | cons hd t ih =>
    obtain ⟨k₀, v₀⟩ := hd
    by_cases hk : k₀ = k
    · subst hk
      simp [dget, dset, h, h']
    · by_cases hk' : k₀ = k'
      · simp [dget, dset, hk, hk', h']
      · simp [dget, dset, hk, hk', ih]

/-! ## Token model (`models.py`) -/

/-- A Blue Railroad token from chain data (`models.py`, `Token`). -/
structure Token where
  token_id : String
  source_key : String
  owner : String
  owner_display : String
  song_id : Option String := none
  date : Option Int := none
  uri : Option String := none
  blockheight : Option Int := none
  video_hash : Option String := none
deriving Repr, DecidableEq

/-- `Token.is_v2` (`models.py` line 83-85): a token is V2 iff its blockheight is set. -/
def Token.isV2 (t : Token) : Bool :=
  t.blockheight.isSome

/-! ## Token aggregation (`chain_data.py`) -/

/-- Models `iter_tokens_from_source`: the tokens found under a source's
chain-data key.  The raw-JSON token parsing (`parse_token`) is abstracted:
chain data is taken as already-parsed token lists per source key. -/
def iterTokensFromSource (chainData : List (String × List Token)) (sourceKey : String) :
    List Token :=
  (dget chainData sourceKey).getD []

/-- One step of the aggregation loop body of `aggregate_tokens_from_sources`
(`chain_data.py` lines 91-102): insert a missing token id, replace a V1
record by a V2 record, otherwise keep the existing record. -/
def aggStep (acc : List (String × Token)) (t : Token) : List (String × Token) :=
  match dget acc t.token_id with
  | none => dset acc t.token_id t
  | some existing =>
    if t.isV2 && !existing.isV2 then dset acc t.token_id t else acc

/-- Embeds `aggregate_tokens_from_sources` (`chain_data.py` lines 80-104):
fold every token of every source, in source-list order, through `aggStep`. -/
def aggregateTokensFromSources (chainData : List (String × List Token))
    (sources : List String) : List (String × Token) :=
  sources.foldl (fun acc sk => (iterTokensFromSource chainData sk).foldl aggStep acc) []

/-- The tokens of all sources in the order the aggregation loop encounters them. -/
def encounterOrder (chainData : List (String × List Token)) :
    List String → List Token
  | [] => []
  | sk :: rest => iterTokensFromSource chainData sk ++ encounterOrder chainData rest

/-- The precedence rule in the spec's words: among all records for one token id,
in encounter order, the first current-version (V2) record wins if any exists,
otherwise the first record wins. -/
def selectPrecedence (records : List Token) : Option Token :=
  match records.find? (·.isV2) with
  | some t => some t
  | none => records.head?

theorem aggregate_flatten (chainData : List (String × List Token)) :
    ∀ (sources : List String) (acc : List (String × Token)),
      sources.foldl (fun acc sk => (iterTokensFromSource chainData sk).foldl aggStep acc) acc
        = (encounterOrder chainData sources).foldl aggStep acc := by
  intro sources
  induction sources with
  | nil => intro acc; simp [encounterOrder]
  | cons sk rest ih =>
    intro acc
    simp only [List.foldl_cons, encounterOrder, List.foldl_append]
    exact ih _

theorem selectPrecedence_eq_none {l : List Token} (h : selectPrecedence l = none) :
    l = [] := by
  unfold selectPrecedence at h
  cases hf : l.find? (·.isV2) with
  | some t => rw [hf] at h; exact absurd h (by simp)
  | none =>
    rw [hf] at h
    exact List.head?_eq_none_iff.mp h

theorem selectPrecedence_cases {l : List Token} {ex : Token}
    (h : selectPrecedence l = some ex) :
    (ex.isV2 = true ∧ l.find? (·.isV2) = some ex) ∨
      (ex.isV2 = false ∧ l.find? (·.isV2) = none ∧ l.head? = some ex) := by
  cases hf : l.find? (·.isV2) with
  | some t =>
    have ht : selectPrecedence l = some t := by unfold selectPrecedence; rw [hf]
    obtain rfl : t = ex := Option.some.inj (ht.symm.trans h)
    have hp := List.find?_some hf
    exact Or.inl ⟨by simpa using hp, rfl⟩
  | none =>
    have ht : selectPrecedence l = l.head? := by unfold selectPrecedence; rw [hf]
    have hh : l.head? = some ex := by rw [← ht, h]
    right
    refine ⟨?_, rfl, hh⟩
    cases hx : ex.isV2
    · rfl
    · have hmem : ex ∈ l := List.mem_of_mem_head? (by simp [hh])
      have := List.find?_eq_none.mp hf ex hmem
      simp [hx] at this

theorem aggStep_eq_of_none {acc : List (String × Token)} {t : Token}
    (h : dget acc t.token_id = none) : aggStep acc t = dset acc t.token_id t := by
  simp [aggStep, h]

theorem aggStep_eq_of_repl {acc : List (String × Token)} {t ex : Token}
    (h : dget acc t.token_id = some ex) (hb : (t.isV2 && !ex.isV2) = true) :
    aggStep acc t = dset acc t.token_id t := by
  simp [aggStep, h, hb]

theorem aggStep_eq_of_keep {acc : List (String × Token)} {t ex : Token}
    (h : dget acc t.token_id = some ex) (hb : (t.isV2 && !ex.isV2) = false) :
    aggStep acc t = acc := by
  simp [aggStep, h, hb]

theorem aggStep_invariant :
    ∀ (l : List Token) (acc : List (String × Token)) (done : List Token),
      (∀ tid, dget acc tid = selectPrecedence (done.filter (·.token_id = tid))) →
      ∀ tid, dget (l.foldl aggStep acc) tid
        = selectPrecedence ((done ++ l).filter (·.token_id = tid)) := by
  intro l
  induction l with
  | nil => intro acc done hinv tid; simpa using hinv tid
  | cons t rest ih =>
    intro acc done hinv tid
    have step : ∀ tid', dget (aggStep acc t) tid'
        = selectPrecedence ((done ++ [t]).filter (·.token_id = tid')) := by
      intro tid'
      by_cases hne : t.token_id = tid'
      · subst hne
        have hfil : (done ++ [t]).filter (·.token_id = t.token_id)
            = done.filter (·.token_id = t.token_id) ++ [t] := by
          simp [List.filter_append]
        rw [hfil]
        cases hg : dget acc t.token_id with
        | none =>
          have hemp : done.filter (·.token_id = t.token_id) = [] :=
            selectPrecedence_eq_none (by rw [← hinv t.token_id, hg])
          rw [aggStep_eq_of_none hg, hemp]
          simp only [List.nil_append, dget_dset_self]
          unfold selectPrecedence
          cases hv : t.isV2 <;> simp [List.find?, hv]
        | some ex =>
          have hsel : selectPrecedence (done.filter (·.token_id = t.token_id)) = some ex := by
            rw [← hinv t.token_id, hg]
          by_cases hrepl : t.isV2 = true ∧ ex.isV2 = false
          · have hb : (t.isV2 && !ex.isV2) = true := by simp [hrepl.1, hrepl.2]
            rw [aggStep_eq_of_repl hg hb, dget_dset_self]
            rcases selectPrecedence_cases hsel with ⟨hv, _⟩ | ⟨_, hfn, _⟩
            · rw [hrepl.2] at hv; exact absurd hv (by simp)
            · unfold selectPrecedence
              rw [List.find?_append, hfn]
              simp [hrepl.1]
          · have hb : (t.isV2 && !ex.isV2) = false := by
              cases hv1 : t.isV2 <;> cases hv2 : ex.isV2 <;> simp_all
            rw [aggStep_eq_of_keep hg hb, hg]
            rcases selectPrecedence_cases hsel with ⟨hv, hfs⟩ | ⟨hv, hfn, hh⟩
            · unfold selectPrecedence
              rw [List.find?_append, hfs]
              rfl
            · have htv : t.isV2 = false := by
                cases hv1 : t.isV2
                · rfl
                · exact absurd ⟨hv1, hv⟩ hrepl
              unfold selectPrecedence
              rw [List.find?_append, hfn]
              have hne' : done.filter (·.token_id = t.token_id) ≠ [] := by
                intro hcon
                rw [hcon] at hh
                simp at hh
              simp only [Option.none_or, List.find?, htv]
              rw [List.head?_append_of_ne_nil _ hne']
              exact hh.symm
      · have hfil : (done ++ [t]).filter (·.token_id = tid')
            = done.filter (·.token_id = tid') := by
          simp [List.filter_append, hne]
        rw [hfil, ← hinv tid']
        cases hg : dget acc t.token_id with
        | none => rw [aggStep_eq_of_none hg]; exact dget_dset_ne _ _ _ _ hne
        | some ex =>
          by_cases hb : (t.isV2 && !ex.isV2) = true
          · rw [aggStep_eq_of_repl hg hb]; exact dget_dset_ne _ _ _ _ hne
          · rw [aggStep_eq_of_keep hg (by simpa using hb)]
    have := ih (aggStep acc t) (done ++ [t]) step tid
    simpa using this

/-- C3.  The aggregated mapping realizes the precedence rule: for every token
id, the aggregate holds the first current-version (V2) record of the encounter
order if one exists, else the first record encountered; hence a V2 record
always beats a V1 record regardless of source order, and within one version
class the first record in source-list order wins. -/
theorem C3_aggregate_precedence (chainData : List (String × List Token))
    (sources : List String) (tid : String) :
    dget (aggregateTokensFromSources chainData sources) tid
      = selectPrecedence ((encounterOrder chainData sources).filter (·.token_id = tid)) := by
  unfold aggregateTokensFromSources
  rw [aggregate_flatten]
  have := aggStep_invariant (encounterOrder chainData sources) [] []
    (by intro tid'; simp [dget, selectPrecedence, List.find?]) tid
  simpa using this

/-! ## Content-identifier codec

`models.py` (`bytes_to_base58`, `video_hash_to_cidv0`) lives in the source;
`thumbnail.py`'s `normalize_cid` delegates to the external `cid`/`multibase`
Python libraries, which are modelled here explicitly: CIDv0 as a 46-char
base58 `Qm..` string, CIDv1 in the base32 multibase (prefix `b`, RFC 4648
lower-case alphabet, no padding), with an unsigned-varint codec prefix. -/

/-- The Bitcoin/IPFS base58 alphabet (`models.py` line 8). -/
def BASE58_ALPHABET : List Char :=
  "123456789ABCDEFGHJKLMNPQRSTUVWXYZabcdefghijkmnopqrstuvwxyz".data

/-- Fueled big-endian byte expansion; the recursion divides by 256 each step,
so any fuel of at least the digit count is exact. -/
def natToBytesF : Nat → Nat → List Nat
  | 0, _ => []
  | f + 1, n => if n = 0 then [] else natToBytesF f (n / 256) ++ [n % 256]

/-- Big-endian byte expansion of a natural number, no leading zero byte.
Fuel `n + 1` always exceeds the base-256 digit count of `n`. -/
def natToBytes (n : Nat) : List Nat :=
  natToBytesF (n + 1) n

/-- Fueled base58 digit expansion, most significant digit first
(the reversed digit loop of `bytes_to_base58`). -/
def natToB58F : Nat → Nat → List Char
  | 0, _ => []
  | f + 1, n =>
    if n = 0 then [] else natToB58F f (n / 58) ++ [BASE58_ALPHABET.getD (n % 58) '1']

/-- Base58 digit expansion of a natural number.  Fuel `n + 1` always exceeds
the base-58 digit count of `n`. -/
def natToB58 (n : Nat) : List Char :=
  natToB58F (n + 1) n

/-- Big-endian interpretation of bytes as a natural number (`int.from_bytes(data, 'big')`). -/
def bytesToNat (l : List Nat) : Nat :=
  l.foldl (fun a b => a * 256 + b) 0

/-- Embeds `bytes_to_base58` (`models.py` lines 11-31): one leading `1` per
leading zero byte, then the base58 digits of the big-endian value. -/
def bytesToBase58 (data : List Nat) : List Char :=
  List.replicate (data.takeWhile (· = 0)).length '1' ++ natToB58 (bytesToNat data)

/-- Value of a hex digit, or none. -/
def hexVal (c : Char) : Option Nat :=
  if '0' ≤ c ∧ c ≤ '9' then some (c.toNat - 48)
  else if 'a' ≤ c ∧ c ≤ 'f' then some (c.toNat - 87)
  else if 'A' ≤ c ∧ c ≤ 'F' then some (c.toNat - 55)
  else none

/-- Models `bytes.fromhex` on a plain even-length hex string (no embedded spaces). -/
def hexToBytes : List Char → Option (List Nat)
  | [] => some []
  | [_] => none
  | a :: b :: t =>
    match hexVal a, hexVal b, hexToBytes t with
    | some x, some y, some r => some ((x * 16 + y) :: r)
    | _, _, _ => none

/-- Embeds `video_hash_to_cidv0` (`models.py` lines 34-63): strip `0x`, reject
empty or all-zero hashes, prepend the SHA-256 multihash header `0x12 0x20`,
base58-encode.  Decode failures yield `none` (the Python `except` clause). -/
def videoHashToCidv0 (video_hash : Option String) : Option String :=
  match video_hash with
  | none => none
  | some vh =>
    if vh.data = [] then none
    else
      let hexStr : List Char :=
        match vh.data with
        | '0' :: 'x' :: rest => rest
        | l => l
      if hexStr = [] ∨ hexStr = List.replicate 64 '0' then none
      else
        match hexToBytes hexStr with
        | none => none
        | some digest => some (String.mk (bytesToBase58 (0x12 :: 0x20 :: digest)))

/-- The RFC 4648 base32 alphabet, lower case (multibase code `b`). -/
def B32_ALPHABET : List Char := "abcdefghijklmnopqrstuvwxyz234567".data

/-- Most-significant-first bit expansion of one byte. -/
def byteToBits (n : Nat) : List Bool :=
  [n / 128 % 2 == 1, n / 64 % 2 == 1, n / 32 % 2 == 1, n / 16 % 2 == 1,
   n / 8 % 2 == 1, n / 4 % 2 == 1, n / 2 % 2 == 1, n % 2 == 1]

def bytesToBits (l : List Nat) : List Bool :=
  l.foldr (fun b acc => byteToBits b ++ acc) []

/-- Value of a most-significant-first bit string. -/
def bitsVal (bs : List Bool) : Nat :=
  bs.foldl (fun a b => a * 2 + (if b then 1 else 0)) 0

/-- Encode bits five at a time into base32 characters; a leftover of fewer
than five bits is dropped (encoding always pads first). -/
def bitsToB32 : List Bool → List Char
  | b0 :: b1 :: b2 :: b3 :: b4 :: rest =>
    B32_ALPHABET.getD (bitsVal [b0, b1, b2, b3, b4]) 'a' :: bitsToB32 rest
  | _ => []

/-- RFC 4648 base32 encoding without padding: pad the bit string with zero
bits to a multiple of five, then emit one character per five bits. -/
def b32encode (bytes : List Nat) : List Char :=
  let bits := bytesToBits bytes
  bitsToB32 (bits ++ List.replicate ((5 - bits.length % 5) % 5) false)

/-- Index of a character in the base32 alphabet. -/
def b32val (c : Char) : Option Nat :=
  B32_ALPHABET.findIdx? (· == c)

/-- Five-bit expansion of a value below 32. -/
def natBits5 (n : Nat) : List Bool :=
  [n / 16 % 2 == 1, n / 8 % 2 == 1, n / 4 % 2 == 1, n / 2 % 2 == 1, n % 2 == 1]

def b32decodeBits : List Char → Option (List Bool)
  | [] => some []
  | c :: t =>
    match b32val c, b32decodeBits t with
    | some v, some bs => some (natBits5 v ++ bs)
    | _, _ => none

/-- Decode bits eight at a time into bytes; leftover bits are dropped. -/
def bitsToBytes : List Bool → List Nat
  | b0 :: b1 :: b2 :: b3 :: b4 :: b5 :: b6 :: b7 :: rest =>
    bitsVal [b0, b1, b2, b3, b4, b5, b6, b7] :: bitsToBytes rest
  | _ => []

/-- RFC 4648 base32 decoding without padding. -/
def b32decode (cs : List Char) : Option (List Nat) :=
  match b32decodeBits cs with
  | none => none
  | some bits => some (bitsToBytes bits)

/-- Index of a character in the base58 alphabet. -/
def b58val (c : Char) : Option Nat :=
  BASE58_ALPHABET.findIdx? (· == c)

def b58decodeNat : List Char → Nat → Option Nat
  | [], acc => some acc
  | c :: t, acc =>
    match b58val c with
    | some v => b58decodeNat t (acc * 58 + v)
    | none => none

/-- Base58 decoding as in the Python `base58` library: one zero byte per
leading `1`, then the big-endian bytes of the base58 value. -/
def b58decode (cs : List Char) : Option (List Nat) :=
  match b58decodeNat cs 0 with
  | none => none
  | some n => some (List.replicate (cs.takeWhile (· = '1')).length 0 ++ natToBytes n)

/-- Fueled LEB128 unsigned-varint encoding. -/
def varintEncodeF : Nat → Nat → List Nat
  | 0, _ => []
  | f + 1, n => if n < 128 then [n] else (n % 128 + 128) :: varintEncodeF f (n / 128)

/-- LEB128 unsigned-varint encoding, as used for CID version and codec tags.
Fuel `n + 1` always exceeds the base-128 digit count of `n`. -/
def varintEncode (n : Nat) : List Nat :=
  varintEncodeF (n + 1) n

def varintDecode : List Nat → Option (Nat × List Nat)
  | [] => none
  | b :: rest =>
    if b < 128 then some (b, rest)
    else
      match varintDecode rest with
      | some (v, r) => some (b % 128 + 128 * v, r)
      | none => none

/-- A parsed content identifier, as held by the external `cid` library. -/
structure Cid where
  version : Nat
  codec : Nat
  multihash : List Nat
deriving Repr, DecidableEq

/-- Multicodec tags the external `multicodec` library recognises (raw, dag-pb,
dag-cbor, libp2p-key, eth-block variants); only their membership matters. -/
def knownCodecs : List Nat := [0x55, 0x70, 0x71, 0x72, 0x90, 0xb0, 0xb1]

def knownCodec (n : Nat) : Bool :=
  knownCodecs.contains n

/-- Interpretation of decoded CIDv1 payload bytes: version byte, varint codec
tag, multihash; unknown codecs and unknown versions raise (yield `none`). -/
def parseCidBytes (v : Nat) (data : List Nat) : Option Cid :=
  match varintDecode data with
  | some (code, mh) =>
    if v = 1 then (if knownCodec code then some ⟨1, code, mh⟩ else none)
    else if v = 0 then (if code = 0x70 then some ⟨0, 0x70, mh⟩ else none)
    else none
  | none => none

/-- The CIDv1 multibase-base32 parsing path of the external `cid` library:
decode the base32 payload, read the version byte, the varint codec tag and
the multihash. -/
def parseCidV1 (rest : List Char) : Option Cid :=
  match b32decode rest with
  | some (v :: data) => parseCidBytes v data
  | _ => none

/-- Models `make_cid` of the external `cid` library on strings: a 46-char
`Qm..` string is a base58 CIDv0 (codec implicitly dag-pb), a `b..` string is
multibase-base32 CIDv1; anything else raises (yields `none`). -/
def parseCid (cs : List Char) : Option Cid :=
  if cs.length = 46 ∧ cs.take 2 = ['Q', 'm'] then
    (b58decode cs).map (fun bs => ⟨0, 0x70, bs⟩)
  else
    match cs with
    | 'b' :: rest => parseCidV1 rest
    | _ => none

/-- Models `CIDv0.to_v1`: version 1 with the dag-pb codec; v1 stays as is. -/
def cidToV1 (c : Cid) : Cid :=
  if c.version = 0 then ⟨1, 0x70, c.multihash⟩ else c

/-- Models `cid.encode("base32")`: multibase prefix `b`, base32 of
varint(version) + varint(codec) + multihash. -/
def encodeCidB32 (c : Cid) : List Char :=
  'b' :: b32encode (varintEncode c.version ++ varintEncode c.codec ++ c.multihash)

/-- Embeds `normalize_cid` (`thumbnail.py` lines 17-33): parse, convert v0 to
v1, re-encode in base32; on any parse failure return the input unchanged. -/
def normalizeCid (s : String) : String :=
  match parseCid s.data with
  | none => s
  | some parsed => String.mk (encodeCidB32 (cidToV1 parsed))

/-- Embeds `get_thumbnail_filename` (`thumbnail.py` lines 140-148). -/
def getThumbnailFilename (cid : String) : String :=
  "Blue_Railroad_Video_" ++ normalizeCid cid ++ ".jpg"

/-! ## Codec roundtrip lemmas -/

theorem byteVal_eq : ∀ b < 256, bitsVal (byteToBits b) = b := by decide

theorem bits5_round :
    ∀ (b0 b1 b2 b3 b4 : Bool),
      b32val (B32_ALPHABET.getD (bitsVal [b0, b1, b2, b3, b4]) 'a')
          = some (bitsVal [b0, b1, b2, b3, b4]) ∧
        natBits5 (bitsVal [b0, b1, b2, b3, b4]) = [b0, b1, b2, b3, b4] := by decide

theorem bits8_lt : ∀ (b0 b1 b2 b3 b4 b5 b6 b7 : Bool),
    bitsVal [b0, b1, b2, b3, b4, b5, b6, b7] < 256 := by decide

theorem b32decodeBits_encode :
    ∀ (l : List Bool), l.length % 5 = 0 → b32decodeBits (bitsToB32 l) = some l
  | [], _ => rfl
  | [_], h => by simp at h
  | [_, _], h => by simp at h
  | [_, _, _], h => by simp at h
  | [_, _, _, _], h => by simp at h
  | b0 :: b1 :: b2 :: b3 :: b4 :: rest, h => by
    have h' : rest.length % 5 = 0 := by
      simp only [List.length_cons] at h
      omega
    have ih := b32decodeBits_encode rest h'
    have hv := bits5_round b0 b1 b2 b3 b4
    simp only [bitsToB32, b32decodeBits, ih, hv.1, hv.2]
    rfl

theorem bitsToBytes_bytesToBits (extra : List Bool) :
    ∀ (l : List Nat), (∀ b ∈ l, b < 256) →
      bitsToBytes (bytesToBits l ++ extra) = l ++ bitsToBytes extra := by
  intro l
  induction l with
  | nil => intro _; rfl
  | cons b t ih =>
    intro hlt
    have hb : b < 256 := hlt b (List.mem_cons_self b t)
    have ht := fun x hx => hlt x (List.mem_cons_of_mem b hx)
    have h1 : bitsToBytes (bytesToBits (b :: t) ++ extra)
        = bitsVal (byteToBits b) :: bitsToBytes (bytesToBits t ++ extra) := rfl
    rw [h1, byteVal_eq b hb, ih ht]
    rfl

theorem replicate_false_bits {k : Nat} (h : k < 8) :
    bitsToBytes (List.replicate k false) = [] := by
  interval_cases k <;> rfl

theorem b32_roundtrip (bytes : List Nat) (h : ∀ b ∈ bytes, b < 256) :
    b32decode (b32encode bytes) = some bytes := by
  unfold b32encode b32decode
  have hlen : (bytesToBits bytes
      ++ List.replicate ((5 - (bytesToBits bytes).length % 5) % 5) false).length % 5 = 0 := by
    simp only [List.length_append, List.length_replicate]
    omega
  simp only [b32decodeBits_encode _ hlen]
  rw [bitsToBytes_bytesToBits _ bytes h]
  rw [replicate_false_bits (by omega)]
  simp

theorem varintEncodeF_round :
    ∀ (f n : Nat) (r : List Nat), n < 128 ^ (f + 1) →
      varintDecode (varintEncodeF (f + 1) n ++ r) = some (n, r) := by
  intro f
  induction f with
  | zero =>
    intro n r h
    have hn : n < 128 := by simpa using h
    simp [varintEncodeF, hn, varintDecode]
  | succ f ih =>
    intro n r h
    by_cases hn : n < 128
    · simp [varintEncodeF, hn, varintDecode]
    · have hdiv : n / 128 < 128 ^ (f + 1) := by
        rw [Nat.div_lt_iff_lt_mul (by norm_num)]
        calc n < 128 ^ (f + 1 + 1) := h
          _ = 128 ^ (f + 1) * 128 := by ring
      have step : varintEncodeF (f + 1 + 1) n
          = (n % 128 + 128) :: varintEncodeF (f + 1) (n / 128) := by
        simp [varintEncodeF, hn]
      rw [step]
      have hd : ¬ (n % 128 + 128 < 128) := by omega
      have hrec := ih (n / 128) r hdiv
      have : varintDecode ((n % 128 + 128) :: (varintEncodeF (f + 1) (n / 128) ++ r))
          = some ((n % 128 + 128) % 128 + 128 * (n / 128), r) := by
        simp [varintDecode, hd, hrec]
      rw [List.cons_append, this]
      have harith : (n % 128 + 128) % 128 + 128 * (n / 128) = n := by omega
      rw [harith]

theorem varint_roundtrip (n : Nat) (r : List Nat) :
    varintDecode (varintEncode n ++ r) = some (n, r) := by
  unfold varintEncode
  refine varintEncodeF_round n n r ?_
  calc n < 128 ^ n + 1 := by
        rcases Nat.eq_zero_or_pos n with h | h
        · simp [h]
        · exact Nat.lt_succ_of_le (Nat.le_of_lt (Nat.lt_pow_self (by norm_num) n))
    _ ≤ 128 ^ (n + 1) := by
        have h1 : 128 ^ n + 1 ≤ 128 ^ n + 128 ^ n := by
          have : 1 ≤ 128 ^ n := Nat.one_le_two_pow.trans (Nat.pow_le_pow_left (by norm_num) n)
          omega
        calc 128 ^ n + 1 ≤ 128 ^ n + 128 ^ n := h1
          _ ≤ 128 ^ n * 128 := by nlinarith [Nat.pos_pow_of_pos n (show 0 < 128 by norm_num)]
          _ = 128 ^ (n + 1) := by ring

theorem natToBytesF_lt : ∀ (f n : Nat), ∀ b ∈ natToBytesF f n, b < 256 := by
  intro f
  induction f with
  | zero => intro n b hb; simp [natToBytesF] at hb
  | succ f ih =>
    intro n b hb
    by_cases h : n = 0
    · simp [natToBytesF, h] at hb
    · simp only [natToBytesF, h, if_false] at hb
      rcases List.mem_append.mp hb with h1 | h2
      · exact ih _ b h1
      · have : b = n % 256 := by simpa using h2
        omega

theorem varintEncodeF_lt : ∀ (f n : Nat), ∀ b ∈ varintEncodeF f n, b < 256 := by
  intro f
  induction f with
  | zero => intro n b hb; simp [varintEncodeF] at hb
  | succ f ih =>
    intro n b hb
    by_cases h : n < 128
    · have : b = n := by simpa [varintEncodeF, h] using hb
      omega
    · simp only [varintEncodeF, h, if_false, List.mem_cons] at hb
      rcases hb with h1 | h2
      · omega
      · exact ih _ b h2

theorem varintEncode_lt (n : Nat) : ∀ b ∈ varintEncode n, b < 256 :=
  varintEncodeF_lt (n + 1) n

theorem bitsToBytes_lt : ∀ (l : List Bool), ∀ b ∈ bitsToBytes l, b < 256
  | [] => fun b hb => absurd hb (List.not_mem_nil b)
  | [_] => fun b hb => absurd hb (List.not_mem_nil b)
  | [_, _] => fun b hb => absurd hb (List.not_mem_nil b)
  | [_, _, _] => fun b hb => absurd hb (List.not_mem_nil b)
  | [_, _, _, _] => fun b hb => absurd hb (List.not_mem_nil b)
  | [_, _, _, _, _] => fun b hb => absurd hb (List.not_mem_nil b)
  | [_, _, _, _, _, _] => fun b hb => absurd hb (List.not_mem_nil b)
  | [_, _, _, _, _, _, _] => fun b hb => absurd hb (List.not_mem_nil b)
  | b0 :: b1 :: b2 :: b3 :: b4 :: b5 :: b6 :: b7 :: rest => by
    intro b hb
    rcases List.mem_cons.mp hb with h | h
    · rw [h]; exact bits8_lt b0 b1 b2 b3 b4 b5 b6 b7
    · exact bitsToBytes_lt rest b h

theorem b32decode_lt {cs : List Char} {l : List Nat} (h : b32decode cs = some l) :
    ∀ b ∈ l, b < 256 := by
  unfold b32decode at h
  cases hd : b32decodeBits cs with
  | none => rw [hd] at h; exact absurd h (by simp)
  | some bits =>
    rw [hd] at h
    obtain rfl : bitsToBytes bits = l := by simpa using h
    exact bitsToBytes_lt bits

theorem b58decode_lt {cs : List Char} {l : List Nat} (h : b58decode cs = some l) :
    ∀ b ∈ l, b < 256 := by
  unfold b58decode at h
  cases hd : b58decodeNat cs 0 with
  | none => rw [hd] at h; exact absurd h (by simp)
  | some n =>
    rw [hd] at h
    obtain rfl : List.replicate (cs.takeWhile (· = '1')).length 0 ++ natToBytes n = l := by
      simpa using h
    intro b hb
    rcases List.mem_append.mp hb with h1 | h2
    · have : b = 0 := List.eq_of_mem_replicate h1
      omega
    · exact natToBytesF_lt _ _ b h2

theorem varintDecode_mem :
    ∀ (l : List Nat) {v : Nat} {r : List Nat}, varintDecode l = some (v, r) →
      ∀ x ∈ r, x ∈ l := by
  intro l
  induction l with
  | nil => intro v r h; simp [varintDecode] at h
  | cons b rest ih =>
    intro v r h x hx
    by_cases hb : b < 128
    · have hr : r = rest := by simp [varintDecode, hb] at h; exact h.2.symm
      exact List.mem_cons_of_mem b (hr ▸ hx)
    · simp only [varintDecode, hb, if_false] at h
      cases hd : varintDecode rest with
      | none => rw [hd] at h; exact absurd h (by simp)
      | some p =>
        obtain ⟨v', r'⟩ := p
        rw [hd] at h
        have h' : some (b % 128 + 128 * v', r') = some (v, r) := h
        have hr : r = r' := (congrArg Prod.snd (Option.some.inj h')).symm
        exact List.mem_cons_of_mem b (ih hd x (hr ▸ hx))

theorem parseCidV1_inv {rest : List Char} {c : Cid} (h : parseCidV1 rest = some c) :
    (∀ b ∈ c.multihash, b < 256) ∧
      ((c.version = 1 ∧ knownCodec c.codec = true) ∨ (c.version = 0 ∧ c.codec = 0x70)) := by
  unfold parseCidV1 at h
  cases hd : b32decode rest with
  | none => rw [hd] at h; exact absurd h (by simp)
  | some bytes =>
    rw [hd] at h
    cases bytes with
    | nil => exact absurd h (by simp)
    | cons v data =>
      have h9 : parseCidBytes v data = some c := h
      clear h
      unfold parseCidBytes at h9
      cases hv : varintDecode data with
      | none => rw [hv] at h9; exact absurd h9 (by simp)
      | some p =>
        obtain ⟨code, mh⟩ := p
        rw [hv] at h9
        have h : (if v = 1 then (if knownCodec code then some (Cid.mk 1 code mh) else none)
            else if v = 0 then (if code = 0x70 then some (Cid.mk 0 0x70 mh) else none)
            else none) = some c := h9
        have hmh : ∀ b ∈ mh, b < 256 := fun b hb =>
          b32decode_lt hd b (List.mem_cons_of_mem v (varintDecode_mem data hv b hb))
        by_cases h1 : v = 1
        · rw [if_pos h1] at h
          by_cases hk : knownCodec code = true
          · rw [if_pos hk] at h
            obtain rfl : Cid.mk 1 code mh = c := Option.some.inj h
            exact ⟨hmh, Or.inl ⟨rfl, hk⟩⟩
          · rw [if_neg hk] at h; exact absurd h (by simp)
        · rw [if_neg h1] at h
          by_cases h0 : v = 0
          · rw [if_pos h0] at h
            by_cases hc : code = 0x70
            · rw [if_pos hc] at h
              obtain rfl : Cid.mk 0 0x70 mh = c := Option.some.inj h
              exact ⟨hmh, Or.inr ⟨rfl, rfl⟩⟩
            · rw [if_neg hc] at h; exact absurd h (by simp)
          · rw [if_neg h0] at h; exact absurd h (by simp)

theorem parseCid_inv {cs : List Char} {c : Cid} (h : parseCid cs = some c) :
    (∀ b ∈ c.multihash, b < 256) ∧
      ((c.version = 1 ∧ knownCodec c.codec = true) ∨ (c.version = 0 ∧ c.codec = 0x70)) := by
  unfold parseCid at h
  split at h
  · cases hb : b58decode cs with
    | none => rw [hb] at h; exact absurd h (by simp)
    | some bs =>
      rw [hb] at h
      obtain rfl : Cid.mk 0 0x70 bs = c := by simpa using h
      exact ⟨b58decode_lt hb, Or.inr ⟨rfl, rfl⟩⟩
  · split at h
    · exact parseCidV1_inv h
    · exact absurd h (by simp)

theorem cid_parse_encode {c : Cid} (hv : c.version = 1) (hk : knownCodec c.codec = true)
    (hmh : ∀ b ∈ c.multihash, b < 256) :
    parseCid (encodeCidB32 c) = some c := by
  obtain ⟨v, code, mh⟩ := c
  obtain rfl : v = 1 := hv
  have hbytes : ∀ b ∈ (varintEncode 1 ++ varintEncode code ++ mh), b < 256 := by
    intro b hb
    rcases List.mem_append.mp hb with h1 | h4
    · rcases List.mem_append.mp h1 with h2 | h3
      · exact varintEncode_lt 1 b h2
      · exact varintEncode_lt code b h3
    · exact hmh b h4
  unfold encodeCidB32 parseCid
  rw [if_neg (fun hcon => by
    have h2 := hcon.2
    rw [List.take_succ_cons] at h2
    exact absurd ((List.cons.injEq _ _ _ _).mp h2).1 (by decide))]
  show parseCidV1 (b32encode (varintEncode 1 ++ varintEncode code ++ mh))
      = some (Cid.mk 1 code mh)
  unfold parseCidV1
  have hE : (varintEncode 1 ++ varintEncode code ++ mh)
      = 1 :: (varintEncode code ++ mh) := by
    have h1 : varintEncode 1 = [1] := rfl
    rw [h1, List.append_assoc]
    rfl
  rw [hE] at hbytes ⊢
  simp only [b32_roundtrip _ hbytes]
  show parseCidBytes 1 (varintEncode code ++ mh) = some (Cid.mk 1 code mh)
  unfold parseCidBytes
  simp only [varint_roundtrip code mh]
  simp [hk]

/-- C9.  The content-identifier normalizer is idempotent on every input
string, valid or not: a failed parse returns the input unchanged, and a
successful parse re-encodes to a canonical CIDv1 base32 string that
re-parses to itself. -/
theorem C9_normalize_idempotent (s : String) :
    normalizeCid (normalizeCid s) = normalizeCid s := by
  cases hp : parseCid s.data with
  | none =>
    have h1 : normalizeCid s = s := by unfold normalizeCid; rw [hp]
    rw [h1]
    exact h1
  | some c =>
    have h1 : normalizeCid s = String.mk (encodeCidB32 (cidToV1 c)) := by
      unfold normalizeCid; rw [hp]
    obtain ⟨hmh, hshape⟩ := parseCid_inv hp
    have hv1 : (cidToV1 c).version = 1 := by
      unfold cidToV1
      by_cases h0 : c.version = 0
      · simp [h0]
      · rw [if_neg h0]
        rcases hshape with ⟨h1', _⟩ | ⟨h0', _⟩
        · exact h1'
        · exact absurd h0' h0
    have hkc : knownCodec (cidToV1 c).codec = true := by
      unfold cidToV1
      by_cases h0 : c.version = 0
      · rw [if_pos h0]; exact (by decide : knownCodec 112 = true)
      · rw [if_neg h0]
        rcases hshape with ⟨_, hk⟩ | ⟨h0', _⟩
        · exact hk
        · exact absurd h0' h0
    have hmh1 : ∀ b ∈ (cidToV1 c).multihash, b < 256 := by
      unfold cidToV1
      by_cases h0 : c.version = 0
      · rw [if_pos h0]; exact hmh
      · rw [if_neg h0]; exact hmh
    have hparse : parseCid (String.mk (encodeCidB32 (cidToV1 c))).data
        = some (cidToV1 c) := cid_parse_encode hv1 hkc hmh1
    have hfix : cidToV1 (cidToV1 c) = cidToV1 c := by
      have hne : (cidToV1 c).version ≠ 0 := by rw [hv1]; norm_num
      rw [show cidToV1 (cidToV1 c)
          = if (cidToV1 c).version = 0 then Cid.mk 1 0x70 (cidToV1 c).multihash
            else cidToV1 c from rfl]
      rw [if_neg hne]
    calc normalizeCid (normalizeCid s)
        = normalizeCid (String.mk (encodeCidB32 (cidToV1 c))) := by rw [h1]
      _ = String.mk (encodeCidB32 (cidToV1 (cidToV1 c))) := by
          unfold normalizeCid; rw [hparse]
      _ = String.mk (encodeCidB32 (cidToV1 c)) := by rw [hfix]
      _ = normalizeCid s := h1.symm

/-! ## Submission model and token/submission matching (`submission.py`) -/

/-- Modelled from the spec: the `Submission` record (imported from
`models.py`, whose copy of the dataclass is not among the provided sources);
fields follow spec section 3 and the parser `parse_submission_content`. -/
structure Submission where
  id : Nat
  exercise : String := ""
  video : Option String := none
  block_height : Option Int := none
  status : String := "Pending"
  ipfs_cid : Option String := none
  token_ids : List Int := []
  participants : List String := []
deriving Repr, DecidableEq

/-- Python `str.lower()` (ASCII model). -/
def pyLower (s : String) : String :=
  String.mk (s.data.map Char.toLower)

def decValGo : List Char → Nat → Option Nat
  | [], acc => some acc
  | c :: t, acc =>
    if '0' ≤ c ∧ c ≤ '9' then decValGo t (acc * 10 + (c.toNat - 48)) else none

def decVal (l : List Char) : Option Nat :=
  if l = [] then none else decValGo l 0

/-- Models Python `int()` on the decimal token-id key strings; a malformed
key, which would raise in Python and abort the call, is mapped to 0. -/
def pyInt (s : String) : Int :=
  match s.data with
  | '-' :: ds =>
    match decVal ds with
    | some n => -(n : Int)
    | none => 0
  | ds =>
    match decVal ds with
    | some n => (n : Int)
    | none => 0

/-- `Token.ipfs_cid` (`models.py` lines 109-118): V2 tokens derive a CIDv0
from the video hash; V1 tokens strip an `ipfs://` scheme from the uri. -/
def Token.ipfsCid (t : Token) : Option String :=
  if t.isV2 then videoHashToCidv0 t.video_hash
  else
    match t.uri with
    | some u =>
      match u.data with
      | 'i' :: 'p' :: 'f' :: 's' :: ':' :: '/' :: '/' :: rest => some (String.mk rest)
      | _ => none
    | none => none

/-- The CID-to-submission lookup built by `match_tokens_to_submissions`
(`submission.py` lines 318-322): keyed by the submission's raw `ipfs_cid`
(truthy only), later submissions overwriting earlier ones. -/
def cidToSubmissionMap (subs : List Submission) : List (String × Submission) :=
  subs.foldl (fun m sub =>
    match sub.ipfs_cid with
    | some c => if c.data = [] then m else dset m c sub
    | none => m) []

/-- One iteration of the token loop of `match_tokens_to_submissions`
(`submission.py` lines 327-337). -/
def matchAStep (cidMap : List (String × Submission)) (res : List (Nat × List Int))
    (kv : String × Token) : List (Nat × List Int) :=
  match kv.2.ipfsCid with
  | none => res
  | some c =>
    if c.data = [] then res
    else
      match dget cidMap c with
      | some sub => dset res sub.id ((dget res sub.id).getD [] ++ [pyInt kv.1])
      | none => res

/-- Embeds `match_tokens_to_submissions` (`submission.py` lines 309-339):
Strategy A, content-identity matching on raw CID string equality. -/
def matchTokensToSubmissions (tokens : List (String × Token)) (subs : List Submission) :
    List (Nat × List Int) :=
  tokens.foldl (matchAStep (cidToSubmissionMap subs)) []

/-- The (blockheight, address) lookup of
`match_tokens_by_blockheight_and_participant` (`submission.py` lines 434-457):
ENS participants are resolved through the mapping (silently skipped when
unresolved), other participants are taken as literal addresses. -/
def buildBlockheightMap (subs : List Submission) (ens : List (String × String)) :
    List ((Int × String) × Submission) :=
  subs.foldl (fun m sub =>
    match sub.block_height with
    | none => m
    | some bh =>
      sub.participants.foldl (fun m w =>
        let wl := pyLower w
        if ".eth".data.isSuffixOf wl.data then
          match dget ens wl with
          | some addr => dset m (bh, pyLower addr) sub
          | none => m
        else dset m (bh, wl) sub) m) []

/-- One iteration of the token loop of
`match_tokens_by_blockheight_and_participant` (`submission.py` lines 460-473). -/
def matchBStep (bhMap : List ((Int × String) × Submission)) (res : List (Nat × List Int))
    (kv : String × Token) : List (Nat × List Int) :=
  match kv.2.blockheight with
  | none => res
  | some bh =>
    match dget bhMap (bh, pyLower kv.2.owner) with
    | some sub => dset res sub.id ((dget res sub.id).getD [] ++ [pyInt kv.1])
    | none => res

/-- Embeds `match_tokens_by_blockheight_and_participant` (`submission.py`
lines 407-479): Strategy B, blockheight + participant matching; each
submission's list is sorted ascending at the end.  Python `sorted` returns
the ascending reordering; on integer lists every sorting algorithm returns
the same list, modelled by the structurally recursive `List.insertionSort`. -/
def matchTokensByBlockheightAndParticipant (tokens : List (String × Token))
    (subs : List Submission) (ens : List (String × String)) : List (Nat × List Int) :=
  let res := tokens.foldl (matchBStep (buildBlockheightMap subs ens)) []
  res.map (fun p => (p.1, List.insertionSort (· ≤ ·) p.2))

/-- Embeds the matching-priority logic of `BlueRailroadImporter.run`
(`importer.py` lines 264-271): Strategy A first; only when its result dict is
empty (falsy) is Strategy B attempted, and the run invokes Strategy B without
an ENS mapping. -/
def chooseTokenToSubmission (tokens : List (String × Token)) (subs : List Submission) :
    List (Nat × List Int) :=
  let a := matchTokensToSubmissions tokens subs
  if a.isEmpty then matchTokensByBlockheightAndParticipant tokens subs [] else a

theorem matchAStep_eq_none {cidMap : List (String × Submission)}
    {res : List (Nat × List Int)} {kv : String × Token} (h : kv.2.ipfsCid = none) :
    matchAStep cidMap res kv = res := by
  simp [matchAStep, h]

theorem matchAStep_eq_empty {cidMap : List (String × Submission)}
    {res : List (Nat × List Int)} {kv : String × Token} {c : String}
    (h : kv.2.ipfsCid = some c) (he : c.data = []) :
    matchAStep cidMap res kv = res := by
  simp [matchAStep, h, he]

theorem matchAStep_eq_miss {cidMap : List (String × Submission)}
    {res : List (Nat × List Int)} {kv : String × Token} {c : String}
    (h : kv.2.ipfsCid = some c) (he : ¬ c.data = []) (hm : dget cidMap c = none) :
    matchAStep cidMap res kv = res := by
  simp [matchAStep, h, he, hm]

theorem matchAStep_eq_hit {cidMap : List (String × Submission)}
    {res : List (Nat × List Int)} {kv : String × Token} {c : String} {sub : Submission}
    (h : kv.2.ipfsCid = some c) (he : ¬ c.data = []) (hm : dget cidMap c = some sub) :
    matchAStep cidMap res kv
      = dset res sub.id ((dget res sub.id).getD [] ++ [pyInt kv.1]) := by
  simp [matchAStep, h, he, hm]

theorem matchAStep_mono {cidMap : List (String × Submission)}
    {res : List (Nat × List Int)} (kv : String × Token) (sid : Nat) (x : Int)
    (h : x ∈ (dget res sid).getD []) :
    x ∈ (dget (matchAStep cidMap res kv) sid).getD [] := by
  cases hc : kv.2.ipfsCid with
  | none => rw [matchAStep_eq_none hc]; exact h
  | some c =>
    by_cases he : c.data = []
    · rw [matchAStep_eq_empty hc he]; exact h
    · cases hm : dget cidMap c with
      | none => rw [matchAStep_eq_miss hc he hm]; exact h
      | some sub =>
        rw [matchAStep_eq_hit hc he hm]
        by_cases hid : sub.id = sid
        · subst hid
          rw [dget_dset_self]
          exact List.mem_append_left _ h
        · rw [dget_dset_ne _ _ _ _ hid]
          exact h

theorem matchAFold_mono {cidMap : List (String × Submission)} :
    ∀ (ts : List (String × Token)) (res : List (Nat × List Int)) (sid : Nat) (x : Int),
      x ∈ (dget res sid).getD [] →
      x ∈ (dget (ts.foldl (matchAStep cidMap) res) sid).getD [] := by
  intro ts
  induction ts with
  | nil => intro res sid x h; exact h
  | cons kv rest ih =>
    intro res sid x h
    rw [List.foldl_cons]
    exact ih _ sid x (matchAStep_mono kv sid x h)

theorem matchAFold_adds {cidMap : List (String × Submission)} :
    ∀ (tokens : List (String × Token)) (res : List (Nat × List Int))
      (k : String) (tok : Token) (c : String) (sub : Submission),
      (k, tok) ∈ tokens → tok.ipfsCid = some c → c.data ≠ [] →
      dget cidMap c = some sub →
      pyInt k ∈ (dget (tokens.foldl (matchAStep cidMap) res) sub.id).getD [] := by
  intro tokens
  induction tokens with
  | nil => intro res k tok c sub hmem; exact absurd hmem (List.not_mem_nil _)
  | cons kv rest ih =>
    intro res k tok c sub hmem hcid hne hsub
    rcases List.mem_cons.mp hmem with heq | hmem'
    · have heq' : kv = (k, tok) := heq.symm
      subst heq'
      rw [List.foldl_cons]
      apply matchAFold_mono rest _ sub.id _
      rw [matchAStep_eq_hit hcid hne hsub, dget_dset_self]
      exact List.mem_append_right _ (List.mem_singleton.mpr rfl)
    · rw [List.foldl_cons]
      exact ih _ k tok c sub hmem' hcid hne hsub

/-- C1 (amended).  In Strategy A the lookup map is keyed by each submission's
raw `ipfs_cid` and each token's derived CID is looked up raw: a token is
added to a submission's result set exactly on verbatim string equality of
the two CIDs; no normalization takes place. -/
theorem C1_matchA_exact_equality (tokens : List (String × Token)) (subs : List Submission)
    (k : String) (tok : Token) (c : String) (sub : Submission)
    (hmem : (k, tok) ∈ tokens) (hcid : tok.ipfsCid = some c) (hne : c.data ≠ [])
    (hsub : dget (cidToSubmissionMap subs) c = some sub) :
    pyInt k ∈ (dget (matchTokensToSubmissions tokens subs) sub.id).getD [] :=
  matchAFold_adds tokens [] k tok c sub hmem hcid hne hsub

/-- The concrete V2 token of the C1 counterexample: its video hash derives
the CIDv0 string `QmZtnF..`. -/
def tokenAbV2 : Token :=
  { token_id := "5", source_key := "blueRailroadV2s", owner := "0x1",
    owner_display := "a", blockheight := some 24000000,
    video_hash :=
      some "0xabababababababababababababababababababababababababababababababab" }

/-- The concrete submission of the C1 counterexample: it names the same
video content, but in the CIDv1 base32 encoding. -/
def submissionB32 : Submission :=
  { id := 2,
    ipfs_cid := some "bafybeiflvov2xk5lvov2xk5lvov2xk5lvov2xk5lvov2xk5lvov2xk5lvm" }

/-- C1 (counterexample).  A V2 token whose video hash derives the CIDv0
`QmZtnF..` and a submission holding the CIDv1 base32 encoding of the very
same content (equal normalized CIDs, different raw strings) do not match:
Strategy A returns the empty mapping, refuting the claim that content-identity
matching is performed on normalized content ids. -/
theorem C1_counterexample :
    tokenAbV2.ipfsCid = some "QmZtnFaddFtzGNT8BxdHVbQrhSFdq1pWxud5z4fA4kxfDt" ∧
    normalizeCid "QmZtnFaddFtzGNT8BxdHVbQrhSFdq1pWxud5z4fA4kxfDt"
      = normalizeCid "bafybeiflvov2xk5lvov2xk5lvov2xk5lvov2xk5lvov2xk5lvov2xk5lvm" ∧
    ("QmZtnFaddFtzGNT8BxdHVbQrhSFdq1pWxud5z4fA4kxfDt" : String)
      ≠ "bafybeiflvov2xk5lvov2xk5lvov2xk5lvov2xk5lvov2xk5lvov2xk5lvm" ∧
    matchTokensToSubmissions [("5", tokenAbV2)] [submissionB32] = [] := by
  refine ⟨by decide, by decide, by decide, by decide⟩

/-- The concrete V1 token of the C1 witness, whose uri carries `QmTestCid`. -/
def tokenUriV1 : Token :=
  { token_id := "5", source_key := "blueRailroads", owner := "0x1",
    owner_display := "a", uri := some "ipfs://QmTestCid" }

/-- The concrete submission of the C1 witness, holding the same raw CID. -/
def submissionQm : Submission :=
  { id := 2, ipfs_cid := some "QmTestCid" }

/-- C1 (witness). -/
theorem C1_matchA_exact_equality_witness :
    pyInt "5" ∈ (dget (matchTokensToSubmissions [("5", tokenUriV1)] [submissionQm])
      submissionQm.id).getD [] :=
  C1_matchA_exact_equality _ _ "5" tokenUriV1 "QmTestCid" submissionQm
    (by decide) (by decide) (by decide) (by decide)

theorem dget_map_snd {κ α β : Type} [DecidableEq κ] (f : α → β) :
    ∀ (l : List (κ × α)) (k : κ),
      dget (l.map (fun p => (p.1, f p.2))) k = (dget l k).map f := by
  intro l
  induction l with
  | nil => intro k; rfl
  | cons p t ih =>
    intro k
    obtain ⟨k', v⟩ := p
    by_cases hk : k' = k
    · simp [dget, hk]
    · simp [dget, hk, ih]

/-- C2 (amended).  Strategy B sorts each submission's token-id list ascending
before returning (duplicates, which can arise from distinct numeric key
strings of equal value, are kept); Strategy A, by contrast, returns lists in
token-iteration order, neither sorted nor deduplicated. -/
theorem C2_strategyB_sorted (tokens : List (String × Token)) (subs : List Submission)
    (ens : List (String × String)) (sid : Nat) (l : List Int)
    (h : dget (matchTokensByBlockheightAndParticipant tokens subs ens) sid = some l) :
    l.Sorted (· ≤ ·) := by
  simp only [matchTokensByBlockheightAndParticipant] at h
  rw [dget_map_snd] at h
  cases hr : dget (tokens.foldl (matchBStep (buildBlockheightMap subs ens)) []) sid with
  | none => rw [hr] at h; exact absurd h (by simp)
  | some l0 =>
    rw [hr] at h
    obtain rfl : List.insertionSort (· ≤ ·) l0 = l := by simpa using h
    exact List.sorted_insertionSort _ l0

/-- The concrete V1 token family of the C2 counterexample (uri CID `Qx`). -/
def tokenQx (tid : String) : Token :=
  { token_id := tid, source_key := "blueRailroads", owner := "0x1",
    owner_display := "a", uri := some "ipfs://Qx" }

/-- The concrete submission of the C2 counterexample, holding CID `Qx`. -/
def submissionQx : Submission :=
  { id := 3, ipfs_cid := some "Qx" }

/-- The concrete V2 token of the C2 duplicate counterexample. -/
def tokenBh : Token :=
  { token_id := "5", source_key := "blueRailroadV2s", owner := "0xA",
    owner_display := "a", blockheight := some 1 }

/-- The concrete submission of the C2 duplicate counterexample. -/
def submissionBh : Submission :=
  { id := 1, block_height := some 1, participants := ["0xa"] }

/-- C2 (counterexample).  Strategy A keeps token-iteration order: tokens fed
as keys "6" then "5" produce the unsorted list `[6, 5]`; and Strategy B keeps
duplicates: the distinct keys "05" and "5" (equal value) produce `[5, 5]`.
This refutes the claim that both strategies return sorted, deduplicated
lists. -/
theorem C2_counterexample :
    matchTokensToSubmissions [("6", tokenQx "6"), ("5", tokenQx "5")] [submissionQx]
      = [(3, [6, 5])] ∧
    ¬ List.Sorted (· ≤ ·) ([6, 5] : List Int) ∧
    matchTokensByBlockheightAndParticipant [("05", tokenBh), ("5", tokenBh)]
      [submissionBh] [] = [(1, [5, 5])] ∧
    ¬ ([5, 5] : List Int).Nodup := by
  refine ⟨by decide, by decide, by decide, by decide⟩

/-- C2 (witness). -/
theorem C2_strategyB_sorted_witness :
    List.Sorted (· ≤ ·) ([5, 5] : List Int) :=
  C2_strategyB_sorted [("05", tokenBh), ("5", tokenBh)] [submissionBh] [] 1 [5, 5]
    (by decide)

/-- C5.  If content-identity matching (Strategy A) assigns a token list to
any submission, the run's matching choice is exactly Strategy A's mapping and
blockheight+participant matching is not consulted. -/
theorem C5_priority (tokens : List (String × Token)) (subs : List Submission)
    (sid : Nat) (ts : List Int)
    (h : dget (matchTokensToSubmissions tokens subs) sid = some ts) :
    chooseTokenToSubmission tokens subs = matchTokensToSubmissions tokens subs := by
  have hne : ¬ (matchTokensToSubmissions tokens subs).isEmpty = true := by
    intro hemp
    rw [List.isEmpty_iff.mp hemp] at h
    simp [dget] at h
  simp [chooseTokenToSubmission, hne]

/-- C5 (witness). -/
theorem C5_priority_witness :
    chooseTokenToSubmission [("5", tokenUriV1)] [submissionQm]
      = matchTokensToSubmissions [("5", tokenUriV1)] [submissionQm] :=
  C5_priority _ _ 2 [5] (by decide)

/-! ## Wikitext field mutator (`submission.py`, `update_submission_field`)

The mutator is embedded over `List Char`.  The two regexes of
`update_submission_field` are embedded by explicit leftmost searches with
Python backtracking semantics worked out: for
`(\{\{Blue Railroad Submission\s*)(.*?)(\}\})` the match starts at the first
case-insensitive occurrence of the template literal, group 1 extends over the
maximal whitespace run, and the lazy body ends at the first following `}}`;
for `\|NAME\s*=\s*[^\|]*` the match starts at the leftmost position offering
`|`, the field name (case-insensitively), optional whitespace and `=`, and
extends to the next `|` or the end of the body. -/

/-- Python's `\s` (and default `str.strip`) character class, ASCII model. -/
def isPySpace (c : Char) : Bool :=
  c = ' ' || c = '\t' || c = '\n' || c = '\r' || c = '\x0b' || c = '\x0c'

def lstripL (l : List Char) : List Char := l.dropWhile isPySpace

def rstripL (l : List Char) : List Char := (l.reverse.dropWhile isPySpace).reverse

/-- Python `str.strip()`. -/
def stripL (l : List Char) : List Char := lstripL (rstripL l)

/-- The slice of a list between two indices (Python `l[a:b]`). -/
def seg (l : List Char) (a b : Nat) : List Char := (l.drop a).take (b - a)

/-- Case-insensitive list equality (`re.IGNORECASE`, ASCII model). -/
def ciEqL (a b : List Char) : Bool := a.map Char.toLower == b.map Char.toLower

/-- Smallest index in `[lo, lo + fuel]` satisfying `p`. -/
def findFrom (p : Nat → Bool) : Nat → Nat → Option Nat
  | lo, 0 => if p lo then some lo else none
  | lo, f + 1 => if p lo then some lo else findFrom p (lo + 1) f

theorem findFrom_some :
    ∀ (f lo q : Nat) (p : Nat → Bool), findFrom p lo f = some q →
      p q = true ∧ lo ≤ q ∧ q ≤ lo + f ∧ ∀ r, lo ≤ r → r < q → p r = false := by
  intro f
  induction f with
  | zero =>
    intro lo q p h
    unfold findFrom at h
    by_cases hp : p lo
    · rw [if_pos hp] at h
      obtain rfl : lo = q := Option.some.inj h
      exact ⟨hp, le_refl _, by omega, fun r h1 h2 => absurd (lt_of_le_of_lt h1 h2) (lt_irrefl _)⟩
    · rw [if_neg hp] at h
      exact absurd h (by simp)
  | succ f ih =>
    intro lo q p h
    unfold findFrom at h
    by_cases hp : p lo
    · rw [if_pos hp] at h
      obtain rfl : lo = q := Option.some.inj h
      exact ⟨hp, le_refl _, by omega, fun r h1 h2 => absurd (lt_of_le_of_lt h1 h2) (lt_irrefl _)⟩
    · rw [if_neg hp] at h
      obtain ⟨hq, hlo, hhi, hmin⟩ := ih (lo + 1) q p h
      refine ⟨hq, by omega, by omega, fun r h1 h2 => ?_⟩
      by_cases hr : r = lo
      · subst hr
        cases hx : p r
        · rfl
        · exact absurd hx (by simpa using hp)
      · exact hmin r (by omega) h2

theorem findFrom_none :
    ∀ (f lo : Nat) (p : Nat → Bool), findFrom p lo f = none →
      ∀ r, lo ≤ r → r ≤ lo + f → p r = false := by
  intro f
  induction f with
  | zero =>
    intro lo p h r h1 h2
    unfold findFrom at h
    by_cases hp : p lo
    · rw [if_pos hp] at h; exact absurd h (by simp)
    · obtain rfl : r = lo := by omega
      simpa using hp
  | succ f ih =>
    intro lo p h r h1 h2
    unfold findFrom at h
    by_cases hp : p lo
    · rw [if_pos hp] at h; exact absurd h (by simp)
    · rw [if_neg hp] at h
      by_cases hr : r = lo
      · subst hr; simpa using hp
      · exact ih (lo + 1) p h r (by omega) (by omega)

theorem findFrom_intro :
    ∀ (f lo q : Nat) (p : Nat → Bool), p q = true → lo ≤ q → q ≤ lo + f →
      (∀ r, lo ≤ r → r < q → p r = false) → findFrom p lo f = some q := by
  intro f
  induction f with
  | zero =>
    intro lo q p hq hlo hhi hmin
    obtain rfl : q = lo := by omega
    unfold findFrom
    rw [if_pos hq]
  | succ f ih =>
    intro lo q p hq hlo hhi hmin
    unfold findFrom
    by_cases hp : p lo
    · obtain rfl : q = lo := by
        by_contra hne
        have := hmin lo (le_refl _) (by omega)
        rw [this] at hp
        exact absurd hp (by simp)
      rw [if_pos hp]
    · rw [if_neg hp]
      have hqlo : lo < q := by
        rcases Nat.lt_or_ge lo q with h | h
        · exact h
        · obtain rfl : q = lo := by omega
          exact absurd hq (by simpa using hp)
      exact ih (lo + 1) q p hq (by omega) (by omega) (fun r h1 h2 => hmin r (by omega) h2)

theorem seg_append_left (u x : List Char) (a b : Nat) (hb : b ≤ u.length) :
    seg (u ++ x) a b = seg u a b := by
  unfold seg
  rw [List.drop_append_eq_append_drop, List.take_append_eq_append_take]
  have h1 : b - a - (u.drop a).length = 0 := by
    simp only [List.length_drop]
    omega
  rw [h1]
  simp

/-- Exact occurrence of `nd` in `hay` at index `q`. -/
def occAt (nd hay : List Char) (q : Nat) : Bool :=
  seg hay q (q + nd.length) == nd

/-- Case-insensitive occurrence of `nd` in `hay` at index `q`. -/
def occCIAt (nd hay : List Char) (q : Nat) : Bool :=
  ciEqL nd (seg hay q (q + nd.length))

/-- The submission template's opening literal. -/
def TLIT : List Char := "\x7b\x7bBlue Railroad Submission".data

/-- The template's closing marker. -/
def CLOSE : List Char := ['\x7d', '\x7d']

/-- The decomposition of a page around the first matched submission template:
`pre ++ lit ++ ws ++ body ++ CLOSE ++ suf`, where `lit ++ ws` is the regex's
group 1 (`template_start`), `body` its group 2, and `CLOSE` its group 3. -/
structure TemplateParts where
  pre : List Char
  lit : List Char
  ws : List Char
  body : List Char
  suf : List Char
deriving Repr, DecidableEq

/-- Embeds the template search of `update_submission_field` (`submission.py`
lines 31-39): leftmost case-insensitive occurrence of the opening literal,
greedy whitespace run, lazy body up to the first following `}}`. -/
def findTemplate (text : List Char) : Option TemplateParts :=
  match findFrom (occCIAt TLIT text) 0 text.length with
  | none => none
  | some p =>
    let rest := text.drop (p + TLIT.length)
    let w := rest.takeWhile isPySpace
    let r := rest.drop w.length
    match findFrom (occAt CLOSE r) 0 r.length with
    | none => none
    | some e => some ⟨text.take p, seg text p (p + TLIT.length), w, r.take e, r.drop (e + 2)⟩

/-- Length of the whitespace run of `body` starting at index `i`. -/
def wsRunFrom (l : List Char) (i : Nat) : Nat :=
  ((l.drop i).takeWhile isPySpace).length

/-- Index of the `=` expected after the field name at `i` plus whitespace. -/
def eqPos (body name : List Char) (i : Nat) : Nat :=
  i + 1 + name.length + wsRunFrom body (i + 1 + name.length)

/-- The field pattern `\|NAME\s*=\s*` anchors at index `i` of the body. -/
def fieldHeadAt (name body : List Char) (i : Nat) : Bool :=
  (seg body i (i + 1) == ['|']) &&
  ciEqL name (seg body (i + 1) (i + 1 + name.length)) &&
  (seg body (eqPos body name i) (eqPos body name i + 1) == ['='])

/-- End of the matched field region: the next `|` after the `=` (the greedy
`[^\|]*`), or the end of the body. -/
def fieldRegionEnd (name body : List Char) (i : Nat) : Nat :=
  let j := eqPos body name i
  match findFrom (fun r => seg body r (r + 1) == ['|']) (j + 1) (body.length - (j + 1)) with
  | some e => e
  | none => body.length

/-- Leftmost anchor of the field pattern in the body (`re.search` of
`\|NAME\s*=\s*[^\|]*`, `submission.py` lines 42-43).  The embedding matches
the field name literally, which is faithful for names free of regex
metacharacters (all call sites use plain identifiers). -/
def fieldFind (name body : List Char) : Option Nat :=
  findFrom (fieldHeadAt name body) 0 body.length

/-- The body of `update_submission_field` past the template match
(`submission.py` lines 41-61): update an existing field in place, or append
a new `|field=value` line before the closing marker. -/
def updateFieldInTemplate (text name value : List Char) (tp : TemplateParts) :
    List Char × Bool :=
  match fieldFind name tp.body with
  | some i =>
    let e := fieldRegionEnd name tp.body i
    let oldv := seg tp.body i e
    let newv := '|' :: (name ++ '=' :: value)
    if stripL oldv = stripL newv then (text, false)
    else
      (tp.pre ++ tp.lit ++ tp.ws ++ (tp.body.take i ++ newv ++ tp.body.drop e)
        ++ CLOSE ++ tp.suf, true)
  | none =>
    let nb0 := rstripL tp.body
    let nb1 := if nb0.getLast? = some '\n' then nb0 else nb0 ++ ['\n']
    let newv := '|' :: (name ++ '=' :: value)
    (tp.pre ++ tp.lit ++ tp.ws ++ (nb1 ++ newv ++ ['\n']) ++ CLOSE ++ tp.suf, true)

/-- Embeds `update_submission_field` (`submission.py` lines 21-61); the
missing-template `ValueError` is the `Except.error` branch. -/
def updateSubmissionField (text name value : List Char) :
    Except (List Char) (List Char × Bool) :=
  match findTemplate text with
  | none =>
    Except.error
      "Could not find \x7b\x7bBlue Railroad Submission\x7d\x7d template in page".data
  | some tp => Except.ok (updateFieldInTemplate text name value tp)

theorem ciEqL_length {a b : List Char} (h : ciEqL a b = true) : a.length = b.length := by
  unfold ciEqL at h
  have h' := eq_of_beq h
  have := congrArg List.length h'
  simpa using this

theorem seg_length (l : List Char) (a b : Nat) :
    (seg l a b).length = min (b - a) (l.length - a) := by
  simp [seg, List.length_take, List.length_drop]

theorem occAt_bound {nd hay : List Char} {q : Nat} (hnd : nd ≠ [])
    (h : occAt nd hay q = true) : q + nd.length ≤ hay.length := by
  unfold occAt at h
  have hpos : 0 < nd.length := List.length_pos.mpr hnd
  have hseg := eq_of_beq h
  have hl := congrArg List.length hseg
  rw [seg_length] at hl
  omega

theorem occCIAt_bound {nd hay : List Char} {q : Nat} (hnd : nd ≠ [])
    (h : occCIAt nd hay q = true) : q + nd.length ≤ hay.length := by
  unfold occCIAt at h
  have hpos : 0 < nd.length := List.length_pos.mpr hnd
  have hl := ciEqL_length h
  rw [seg_length] at hl
  omega

theorem drop_eq_seg_append (hay : List Char) (q n : Nat) (hb : q + n ≤ hay.length) :
    hay.drop q = seg hay q (q + n) ++ hay.drop (q + n) := by
  unfold seg
  conv_lhs => rw [← List.take_append_drop n (hay.drop q)]
  rw [List.drop_drop]
  have h1 : q + n - q = n := by omega
  rw [h1]

theorem occAt_decomp {nd hay : List Char} {q : Nat} (hnd : nd ≠ [])
    (h : occAt nd hay q = true) :
    hay = hay.take q ++ nd ++ hay.drop (q + nd.length) := by
  have hb := occAt_bound hnd h
  have hseg : seg hay q (q + nd.length) = nd := eq_of_beq h
  conv_lhs => rw [← List.take_append_drop q hay]
  rw [drop_eq_seg_append hay q nd.length hb, hseg, List.append_assoc]

theorem occCIAt_decomp {nd hay : List Char} {q : Nat} (hnd : nd ≠ [])
    (h : occCIAt nd hay q = true) :
    hay = hay.take q ++ seg hay q (q + nd.length) ++ hay.drop (q + nd.length) := by
  have hb := occCIAt_bound hnd h
  conv_lhs => rw [← List.take_append_drop q hay]
  rw [drop_eq_seg_append hay q nd.length hb, List.append_assoc]

theorem head?_dropWhile_not (p : Char → Bool) :
    ∀ (l : List Char) (c : Char), (l.dropWhile p).head? = some c → p c = false := by
  intro l
  induction l with
  | nil => intro c h; simp [List.dropWhile] at h
  | cons a t ih =>
    intro c h
    by_cases hp : p a
    · rw [List.dropWhile_cons_of_pos hp] at h
      exact ih c h
    · rw [List.dropWhile_cons_of_neg hp] at h
      obtain rfl : a = c := by simpa using h
      simpa using hp

theorem head?_take_of_pos {l : List Char} {e : Nat} (he : 0 < e) :
    (l.take e).head? = l.head? := by
  cases l with
  | nil => simp
  | cons a t =>
    cases e with
    | zero => omega
    | succ e => simp

theorem drop_takeWhile_len (p : Char → Bool) (l : List Char) :
    l.drop (l.takeWhile p).length = l.dropWhile p := by
  induction l with
  | nil => rfl
  | cons a t ih =>
    by_cases hp : p a
    · rw [List.takeWhile_cons_of_pos hp, List.dropWhile_cons_of_pos hp]
      simpa using ih
    · rw [List.takeWhile_cons_of_neg hp, List.dropWhile_cons_of_neg hp]
      simp

theorem findTemplate_sound {text : List Char} {tp : TemplateParts}
    (h : findTemplate text = some tp) :
    text = tp.pre ++ tp.lit ++ tp.ws ++ tp.body ++ CLOSE ++ tp.suf ∧
    tp.lit.length = TLIT.length ∧ ciEqL TLIT tp.lit = true ∧
    (∀ c ∈ tp.ws, isPySpace c = true) ∧
    (∀ c, tp.body.head? = some c → isPySpace c = false) ∧
    (∀ q, q < tp.pre.length → occCIAt TLIT text q = false) ∧
    (∀ q, q < tp.body.length → occAt CLOSE (tp.body ++ CLOSE ++ tp.suf) q = false) := by
  unfold findTemplate at h
  cases hp : findFrom (occCIAt TLIT text) 0 text.length with
  | none => rw [hp] at h; exact absurd h (by simp)
  | some p =>
    rw [hp] at h
    obtain ⟨hocc, -, -, hmin⟩ := findFrom_some _ _ _ _ hp
    have h2 : (match findFrom (occAt CLOSE
          ((text.drop (p + TLIT.length)).drop
            ((text.drop (p + TLIT.length)).takeWhile isPySpace).length)) 0
          ((text.drop (p + TLIT.length)).drop
            ((text.drop (p + TLIT.length)).takeWhile isPySpace).length).length with
        | none => none
        | some e =>
          some (⟨text.take p, seg text p (p + TLIT.length),
            (text.drop (p + TLIT.length)).takeWhile isPySpace,
            ((text.drop (p + TLIT.length)).drop
              ((text.drop (p + TLIT.length)).takeWhile isPySpace).length).take e,
            ((text.drop (p + TLIT.length)).drop
              ((text.drop (p + TLIT.length)).takeWhile isPySpace).length).drop (e + 2)⟩
            : TemplateParts)) = some tp := h
    clear h
    set rest := text.drop (p + TLIT.length) with hrestdef
    set w := rest.takeWhile isPySpace with hwdef
    set r := rest.drop w.length with hrdef
    cases he : findFrom (occAt CLOSE r) 0 r.length with
    | none => rw [he] at h2; exact absurd h2 (by simp)
    | some e =>
      rw [he] at h2
      obtain ⟨hoccE, -, -, hminE⟩ := findFrom_some _ _ _ _ he
      have htp : (⟨text.take p, seg text p (p + TLIT.length), w, r.take e,
          r.drop (e + 2)⟩ : TemplateParts) = tp := Option.some.inj h2
      subst htp
      have hbound := occCIAt_bound (by decide) hocc
      have hboundE := occAt_bound (by decide) hoccE
      have hclen : CLOSE.length = 2 := rfl
      have hlitlen : (seg text p (p + TLIT.length)).length = TLIT.length := by
        rw [seg_length]; omega
      have hrw : rest = w ++ r := by
        rw [hwdef, hrdef, drop_takeWhile_len]
        exact (List.takeWhile_append_dropWhile isPySpace rest).symm
      have hrdecomp : r = r.take e ++ CLOSE ++ r.drop (e + 2) := by
        have hd := occAt_decomp (by decide) hoccE
        rw [hclen] at hd
        exact hd
      have hbodylen : (r.take e).length = e := by
        rw [List.length_take]
        omega
      refine ⟨?_, hlitlen, ?_, ?_, ?_, ?_, ?_⟩
      · conv_lhs => rw [occCIAt_decomp (by decide) hocc]
        rw [← hrestdef, hrw]
        conv_lhs => rw [hrdecomp]
        simp [List.append_assoc]
      · unfold occCIAt at hocc
        exact hocc
      · intro c hc
        exact List.mem_takeWhile_imp hc
      · intro c hc
        have he0 : 0 < e := by
          by_contra h0
          have h0' : e = 0 := by omega
          rw [h0'] at hc
          simp at hc
        rw [head?_take_of_pos he0] at hc
        rw [hrdef, hwdef, drop_takeWhile_len] at hc
        exact head?_dropWhile_not isPySpace rest c hc
      · intro q hq
        have hlp : (text.take p).length = p := by
          rw [List.length_take]; omega
        rw [hlp] at hq
        exact hmin q (by omega) hq
      · intro q hq
        rw [hbodylen] at hq
        have := hminE q (by omega) hq
        rw [← hrdecomp]
        exact this

theorem updateSubmissionField_eq_ok {text name value : List Char} {tp : TemplateParts}
    (h : findTemplate text = some tp) :
    updateSubmissionField text name value
      = Except.ok (updateFieldInTemplate text name value tp) := by
  simp [updateSubmissionField, h]

theorem updateFieldInTemplate_found_same {text name value : List Char}
    {tp : TemplateParts} {i : Nat} (hf : fieldFind name tp.body = some i)
    (heq : stripL (seg tp.body i (fieldRegionEnd name tp.body i))
      = stripL ('|' :: (name ++ '=' :: value))) :
    updateFieldInTemplate text name value tp = (text, false) := by
  simp [updateFieldInTemplate, hf, heq]

theorem updateFieldInTemplate_found_changed {text name value : List Char}
    {tp : TemplateParts} {i : Nat} (hf : fieldFind name tp.body = some i)
    (hne : ¬ stripL (seg tp.body i (fieldRegionEnd name tp.body i))
      = stripL ('|' :: (name ++ '=' :: value))) :
    updateFieldInTemplate text name value tp
      = (tp.pre ++ tp.lit ++ tp.ws
          ++ (tp.body.take i ++ ('|' :: (name ++ '=' :: value))
            ++ tp.body.drop (fieldRegionEnd name tp.body i)) ++ CLOSE ++ tp.suf,
        true) := by
  simp [updateFieldInTemplate, hf, hne]

theorem updateFieldInTemplate_append {text name value : List Char}
    {tp : TemplateParts} (hf : fieldFind name tp.body = none) :
    updateFieldInTemplate text name value tp
      = (tp.pre ++ tp.lit ++ tp.ws
          ++ ((if (rstripL tp.body).getLast? = some '\n' then rstripL tp.body
               else rstripL tp.body ++ ['\n'])
            ++ ('|' :: (name ++ '=' :: value)) ++ ['\n']) ++ CLOSE ++ tp.suf,
        true) := by
  simp [updateFieldInTemplate, hf]

/-- C7.  A field write through `update_submission_field` touches only the
matched template region: the text before the match and the text after the
closing marker — all free text and any further templates — are byte-identical
in the output. -/
theorem C7_outside_preserved (text name value : List Char) (tp : TemplateParts)
    (h : findTemplate text = some tp) (out : List Char) (ch : Bool)
    (hrun : updateSubmissionField text name value = Except.ok (out, ch)) :
    text = tp.pre ++ (tp.lit ++ tp.ws ++ tp.body ++ CLOSE) ++ tp.suf ∧
    ∃ mid, out = tp.pre ++ mid ++ tp.suf := by
  have hdec := (findTemplate_sound h).1
  have hdec' : text = tp.pre ++ (tp.lit ++ tp.ws ++ tp.body ++ CLOSE) ++ tp.suf := by
    rw [hdec]; simp [List.append_assoc]
  refine ⟨hdec', ?_⟩
  rw [updateSubmissionField_eq_ok h] at hrun
  have hpair : updateFieldInTemplate text name value tp = (out, ch) :=
    Except.ok.inj hrun
  cases hf : fieldFind name tp.body with
  | some i =>
    by_cases hc : stripL (seg tp.body i (fieldRegionEnd name tp.body i))
        = stripL ('|' :: (name ++ '=' :: value))
    · rw [updateFieldInTemplate_found_same hf hc] at hpair
      have hout : text = out := congrArg Prod.fst hpair
      refine ⟨tp.lit ++ tp.ws ++ tp.body ++ CLOSE, ?_⟩
      rw [← hout, hdec']
    · rw [updateFieldInTemplate_found_changed hf hc] at hpair
      have hout : out = tp.pre ++ tp.lit ++ tp.ws
          ++ (tp.body.take i ++ ('|' :: (name ++ '=' :: value))
            ++ tp.body.drop (fieldRegionEnd name tp.body i)) ++ CLOSE ++ tp.suf :=
        (congrArg Prod.fst hpair).symm
      refine ⟨tp.lit ++ tp.ws
        ++ (tp.body.take i ++ ('|' :: (name ++ '=' :: value))
          ++ tp.body.drop (fieldRegionEnd name tp.body i)) ++ CLOSE, ?_⟩
      rw [hout]
      simp [List.append_assoc]
  | none =>
    rw [updateFieldInTemplate_append hf] at hpair
    have hout : out = tp.pre ++ tp.lit ++ tp.ws
        ++ ((if (rstripL tp.body).getLast? = some '\n' then rstripL tp.body
             else rstripL tp.body ++ ['\n'])
          ++ ('|' :: (name ++ '=' :: value)) ++ ['\n']) ++ CLOSE ++ tp.suf :=
      (congrArg Prod.fst hpair).symm
    refine ⟨tp.lit ++ tp.ws
      ++ ((if (rstripL tp.body).getLast? = some '\n' then rstripL tp.body
           else rstripL tp.body ++ ['\n'])
        ++ ('|' :: (name ++ '=' :: value)) ++ ['\n']) ++ CLOSE, ?_⟩
    rw [hout]
    simp [List.append_assoc]

theorem rstripL_append_ws (x w : List Char) (hw : ∀ c ∈ w, isPySpace c = true) :
    rstripL (x ++ w) = rstripL x := by
  unfold rstripL
  rw [List.reverse_append]
  rw [List.dropWhile_append_of_pos (by
    intro a ha
    exact hw a (List.mem_reverse.mp ha))]

/-- C4 (amended).  `update_submission_field` reports `changed=false` when the
matched existing field region is already in the writer's canonical form —
the given field name verbatim, no whitespace around `=`, the value verbatim —
followed only by trailing whitespace.  (Whitespace around the `=` or a
different letter-case of the field name in the existing line defeats the
comparison and causes a rewrite; see the counterexample.) -/
theorem C4_unchanged_on_canonical (text name value : List Char) (tp : TemplateParts)
    (i : Nat) (trail : List Char)
    (h : findTemplate text = some tp)
    (hf : fieldFind name tp.body = some i)
    (hseg : seg tp.body i (fieldRegionEnd name tp.body i)
      = ('|' :: (name ++ '=' :: value)) ++ trail)
    (htrail : ∀ c ∈ trail, isPySpace c = true) :
    updateSubmissionField text name value = Except.ok (text, false) := by
  rw [updateSubmissionField_eq_ok h]
  have heq : stripL (seg tp.body i (fieldRegionEnd name tp.body i))
      = stripL ('|' :: (name ++ '=' :: value)) := by
    rw [hseg]
    unfold stripL
    rw [rstripL_append_ws _ _ htrail]
  rw [updateFieldInTemplate_found_same hf heq]

/-- C4 (counterexample).  An existing line `|foo = bar` (spaces around `=`)
and an existing line `|FOO=bar` (different case) both carry the trimmed value
`bar`, yet `update_submission_field(text, "foo", "bar")` reports
`changed=true` and rewrites, refuting the claimed insensitivity to the
whitespace around `=` and to the field name's letter case. -/
theorem C4_counterexample :
    (updateSubmissionField "\x7b\x7bBlue Railroad Submission\n|foo = bar\n\x7d\x7d".data
        "foo".data "bar".data).toOption.map Prod.snd = some true ∧
    (updateSubmissionField "\x7b\x7bBlue Railroad Submission\n|FOO=bar\n\x7d\x7d".data
        "foo".data "bar".data).toOption.map Prod.snd = some true :=
  ⟨by decide, by decide⟩

/-- The concrete page of the C4 and C7 witnesses, already in canonical form. -/
def textCanon : List Char :=
  "\x7b\x7bBlue Railroad Submission\n|foo=bar\n\x7d\x7d".data

/-- Its template decomposition. -/
def tpCanon : TemplateParts :=
  ⟨[], "\x7b\x7bBlue Railroad Submission".data, "\n".data, "|foo=bar\n".data, []⟩

/-- C4 (witness). -/
theorem C4_unchanged_on_canonical_witness :
    updateSubmissionField textCanon "foo".data "bar".data
      = Except.ok (textCanon, false) :=
  C4_unchanged_on_canonical textCanon "foo".data "bar".data tpCanon 0 ['\n']
    (by decide) (by decide) (by decide) (by decide)

/-- The concrete page of the C7 witness. -/
def textC7 : List Char :=
  "pre \x7b\x7bBlue Railroad Submission\n|a=1\n\x7d\x7d post".data

/-- Its template decomposition. -/
def tpC7 : TemplateParts :=
  ⟨"pre ".data, "\x7b\x7bBlue Railroad Submission".data, "\n".data, "|a=1\n".data,
    " post".data⟩

/-- The mutator's output on `textC7`. -/
def outC7 : List Char :=
  "pre \x7b\x7bBlue Railroad Submission\n|a=1\n|foo=bar\n\x7d\x7d post".data

/-- C7 (witness). -/
theorem C7_outside_preserved_witness :
    textC7 = tpC7.pre ++ (tpC7.lit ++ tpC7.ws ++ tpC7.body ++ CLOSE) ++ tpC7.suf ∧
    ∃ mid, outC7 = tpC7.pre ++ mid ++ tpC7.suf :=
  C7_outside_preserved textC7 "foo".data "bar".data tpC7 (by decide) outC7 true
    (by rfl)

/-! ## Submission page update (`submission.py`, `update_submission_cid`) -/

/-- The structured result of a page save attempt (`wiki_client.py`,
`SaveResult`; the `changed_fields` list is not modelled). -/
structure SaveResult where
  page_title : String
  action : String
  message : String := ""
deriving Repr, DecidableEq

/-- Embeds `get_submission_page_title` (`submission.py` lines 16-18). -/
def getSubmissionPageTitle (submission_id : Nat) : String :=
  "Blue Railroad Submission/" ++ toString submission_id

/-- Embeds `update_submission_cid` (`submission.py` lines 64-105).  The wiki
client is modelled by the page store `pages` (reads) and the abstract `save`
function (writes); the second component lists the save calls performed. -/
def updateSubmissionCid (save : String → String → String → SaveResult)
    (pages : List (String × String)) (submission_id : Nat) (ipfs_cid : String) :
    SaveResult × List (String × String) :=
  let page_title := getSubmissionPageTitle submission_id
  match dget pages page_title with
  | none => (⟨page_title, "error", "Page not found: " ++ page_title⟩, [])
  | some current =>
    match updateSubmissionField current.data "ipfs_cid".data ipfs_cid.data with
    | Except.error e => (⟨page_title, "error", String.mk e⟩, [])
    | Except.ok (updated, was_changed) =>
      if was_changed then
        (save page_title (String.mk updated)
          ("Add IPFS CID: " ++ String.mk (ipfs_cid.data.take 20) ++ "..."),
         [(page_title, String.mk updated)])
      else (⟨page_title, "unchanged", "IPFS CID already set to this value"⟩, [])

/-- C8.  A CID write against a page whose text holds no submission template
produces a per-item result of kind `error` (the `ValueError` is caught at the
item boundary) and performs no save, leaving the page unchanged. -/
theorem C8_missing_template_error (save : String → String → String → SaveResult)
    (pages : List (String × String)) (sid : Nat) (cid : String) (txt : String)
    (hget : dget pages (getSubmissionPageTitle sid) = some txt)
    (hnt : findTemplate txt.data = none) :
    (updateSubmissionCid save pages sid cid).1.action = "error" ∧
    (updateSubmissionCid save pages sid cid).2 = [] := by
  have herr : updateSubmissionField txt.data "ipfs_cid".data cid.data
      = Except.error
        "Could not find \x7b\x7bBlue Railroad Submission\x7d\x7d template in page".data := by
    simp [updateSubmissionField, hnt]
  constructor <;> simp [updateSubmissionCid, hget, herr]

/-- C8 (witness). -/
theorem C8_missing_template_error_witness :
    (updateSubmissionCid (fun t _ _ => ⟨t, "updated", ""⟩)
      [("Blue Railroad Submission/1", "no template here")] 1 "bafyX").1.action
        = "error" ∧
    (updateSubmissionCid (fun t _ _ => ⟨t, "updated", ""⟩)
      [("Blue Railroad Submission/1", "no template here")] 1 "bafyX").2 = [] :=
  C8_missing_template_error (fun t _ _ => ⟨t, "updated", ""⟩)
    [("Blue Railroad Submission/1", "no template here")] 1 "bafyX" "no template here"
    (by decide) (by decide)

/-! ## Token pages (`token_page.py`)

`check_maybelle_pinned` (an HTTP check against the pinning host, imported
from `thumbnail.py` but not among the provided sources) and the
local-timezone `datetime.fromtimestamp` formatter inside
`Token.formatted_date` are external effects; both are taken as parameters
(`pinned`, `fmtTs`). -/

/-- Embeds `Token.formatted_date` (`models.py` lines 87-107): the 8-digit
`YYYYMMDD` branch exactly; the Unix-timestamp branch delegates to the
environment's formatter `fmtTs` (local timezone, failures give `none`). -/
def pyFormattedDate (fmtTs : Int → Option String) (t : Token) : Option String :=
  match t.date with
  | none => none
  | some d =>
    let ds := toString d
    if ds.length = 8 ∧ ds.data.head? = some '2' then
      some (String.mk (ds.data.take 4) ++ "-" ++ String.mk ((ds.data.drop 4).take 2)
        ++ "-" ++ String.mk ((ds.data.drop 6).take 2))
    else if 10 ≤ ds.length ∧ ds.data.all (fun c => '0' ≤ c && c ≤ '9') then
      fmtTs d
    else none

/-- Python `x or ''` on an optional string. -/
def orEmptyS (o : Option String) : List Char :=
  match o with
  | some s => s.data
  | none => []

/-- Python `x or ''` on an optional integer (0 is falsy). -/
def orEmptyI (o : Option Int) : List Char :=
  match o with
  | some i => if i = 0 then [] else (toString i).data
  | none => []

/-- Python `"\n".join`. -/
def joinNL : List (List Char) → List Char
  | [] => []
  | [l] => l
  | l :: rest => l ++ '\n' :: joinNL rest

/-- Embeds `generate_template_call` (`token_page.py` lines 10-45). -/
def generateTemplateCall (fmtTs : Int → Option String) (token : Token)
    (maybelle_pinned : Bool) (submission_id : Option Nat) : List Char :=
  let thumbnail : List Char :=
    match token.ipfsCid with
    | some cid => if cid.data = [] then [] else (getThumbnailFilename cid).data
    | none => []
  let cidTruthy : Bool :=
    match token.ipfsCid with
    | some cid => cid.data ≠ []
    | none => false
  joinNL
    ([ "\x7b\x7bBlue Railroad Token".data,
       "|token_id=".data ++ token.token_id.data,
       "|song_id=".data ++ orEmptyS token.song_id,
       "|contract_version=".data ++ (if token.isV2 then "V2".data else "V1".data),
       "|thumbnail=".data ++ thumbnail,
       "|maybelle_pinned=".data ++ (if maybelle_pinned then "yes".data else "no".data) ]
     ++ (if token.isV2 then
          [ "|blockheight=".data ++ orEmptyI token.blockheight,
            "|video_hash=".data ++ orEmptyS token.video_hash ]
         else
          [ "|date=".data ++ orEmptyS (pyFormattedDate fmtTs token),
            "|date_raw=".data ++ orEmptyI token.date ])
     ++ [ "|owner=".data ++ token.owner.data,
          "|owner_display=".data ++ token.owner_display.data,
          "|uri=".data ++ orEmptyS token.uri,
          "|uri_type=".data ++ (if cidTruthy then "ipfs".data else "unknown".data),
          "|ipfs_cid=".data ++ orEmptyS token.ipfsCid,
          "|submission_id=".data
            ++ (match submission_id with
                | some n => if n = 0 then [] else (toString n).data
                | none => []),
          "\x7d\x7d".data ])

/-- Embeds `generate_token_page_content` (`token_page.py` lines 48-59). -/
def generateTokenPageContent (fmtTs : Int → Option String)
    (pinned : Option String → Bool) (token : Token) (submission_id : Option Nat) :
    List Char :=
  joinNL ([generateTemplateCall fmtTs token (pinned token.ipfsCid) submission_id, []]
    ++ (if token.isV2 then ["[[Category:Blue Railroad V2 Tokens]]".data] else []))

/-- The token template's opening literal (case sensitive). -/
def TOKLIT : List Char := "\x7b\x7bBlue Railroad Token".data

/-- Greedy parse of `(?:\|[^\n]*\n)*\}\}` starting at `q`: as many `|..\n`
lines as possible, backtracking to the first point where `}}` follows. -/
def lineSeqEnd (cs : List Char) : Nat → Nat → Option Nat
  | 0, _ => none
  | f + 1, q =>
    match (if seg cs q (q + 1) == ['|'] then
        match findFrom (fun r => seg cs r (r + 1) == ['\n']) (q + 1)
            (cs.length - (q + 1)) with
        | some nl => lineSeqEnd cs f (nl + 1)
        | none => none
      else none) with
    | some e => some e
    | none => if occAt CLOSE cs q then some (q + 2) else none

/-- Match of `\{\{Blue Railroad Token\s*\n(?:\|[^\n]*\n)*\}\}` anchored at
`i`: the literal, then a whitespace run whose newlines are tried greedily
from the last (the backtracking `\s*\n`), then the line sequence. -/
def tokenTemplateEndAt (cs : List Char) (i : Nat) : Option Nat :=
  if occAt TOKLIT cs i then
    let a := cs.drop (i + TOKLIT.length)
    let w := a.takeWhile isPySpace
    (List.range w.length).reverse.findSome? (fun k =>
      if w.getD k ' ' = '\n' then
        lineSeqEnd cs (cs.length + 1) (i + TOKLIT.length + k + 1)
      else none)
  else none

/-- Embeds the `re.search` of the token-template pattern
(`token_page.py` line 73-74): leftmost match, as (start, end) indices. -/
def findTokenTemplate (cs : List Char) : Option (Nat × Nat) :=
  match findFrom (fun i => (tokenTemplateEndAt cs i).isSome) 0 cs.length with
  | none => none
  | some i => (tokenTemplateEndAt cs i).map (fun e => (i, e))

/-- Embeds the parameter regexes `\|NAME=([^\n|]+)` of `update_existing_page`
(`token_page.py` lines 83-90): leftmost occurrence of the literal followed by
at least one character that is neither newline nor `|`; group 1 is the
maximal such run. -/
def extractParam (lit cs : List Char) : Option (List Char) :=
  match findFrom (fun i => occAt lit cs i &&
      (decide (i + lit.length < cs.length)) &&
      !(cs.getD (i + lit.length) ' ' = '\n') &&
      !(cs.getD (i + lit.length) ' ' = '|')) 0 cs.length with
  | none => none
  | some i => some ((cs.drop (i + lit.length)).takeWhile (fun c => !(c = '\n') && !(c = '|')))

/-- Python `", ".join`. -/
def joinComma : List (List Char) → List Char
  | [] => []
  | [l] => l
  | l :: rest => l ++ ',' :: ' ' :: joinComma rest

/-- Embeds `update_existing_page` (`token_page.py` lines 62-113): with no
template present, the page content is fully regenerated with reason
"template not found"; otherwise only the template block is replaced when
owner, maybelle-pin state or submission link changed. -/
def updateExistingPage (fmtTs : Int → Option String) (pinned : Option String → Bool)
    (existing : List Char) (token : Token) (submission_id : Option Nat) :
    Option (List Char × List Char) :=
  match findTokenTemplate existing with
  | none =>
    some (generateTokenPageContent fmtTs pinned token submission_id,
      "template not found".data)
  | some (s, e) =>
    let old_template := seg existing s e
    let existing_owner := (extractParam "|owner=".data old_template).map stripL
    let existing_pinned := (extractParam "|maybelle_pinned=".data old_template).map stripL
    let existing_submission :=
      (extractParam "|submission_id=".data old_template).map stripL
    let mp := pinned token.ipfsCid
    let new_pinned_str : List Char := if mp then "yes".data else "no".data
    let new_submission_str : List Char :=
      match submission_id with
      | some n => if n = 0 then [] else (toString n).data
      | none => []
    let sidTruthy : Bool :=
      match submission_id with
      | some n => n ≠ 0
      | none => false
    let reasons : List (List Char) :=
      (if existing_owner ≠ some token.owner.data then ["ownership changed".data] else [])
      ++ (if existing_pinned ≠ some new_pinned_str then
            [if mp then "maybelle pin confirmed".data else "maybelle pin lost".data]
          else [])
      ++ (if existing_submission ≠ some new_submission_str then
            [if sidTruthy then "submission link added".data
             else "submission link removed".data]
          else [])
    if reasons = [] then none
    else
      some (existing.take s
        ++ generateTemplateCall fmtTs token mp submission_id
        ++ existing.drop e, joinComma reasons)

/-- C10.  When an existing token page holds no `Blue Railroad Token`
template block, `update_existing_page` returns the completely regenerated
page with reason "template not found": the result is a function of the token
alone, so every byte of the page's previous free text is discarded. -/
theorem C10_regenerates_without_template (fmtTs : Int → Option String)
    (pinned : Option String → Bool) (existing : List Char) (token : Token)
    (submission_id : Option Nat)
    (h : findTokenTemplate existing = none) :
    updateExistingPage fmtTs pinned existing token submission_id
      = some (generateTokenPageContent fmtTs pinned token submission_id,
          "template not found".data) := by
  simp [updateExistingPage, h]

/-- C10 (witness): a page holding only free text is wholly replaced. -/
theorem C10_regenerates_without_template_witness :
    updateExistingPage (fun _ => none) (fun _ => false)
      "A page of user prose with no token template.".data
      { token_id := "7", source_key := "blueRailroads", owner := "0x1",
        owner_display := "a" } none
      = some (generateTokenPageContent (fun _ => none) (fun _ => false)
          { token_id := "7", source_key := "blueRailroads", owner := "0x1",
            owner_display := "a" } none,
        "template not found".data) :=
  C10_regenerates_without_template (fun _ => none) (fun _ => false)
    "A page of user prose with no token template.".data
    { token_id := "7", source_key := "blueRailroads", owner := "0x1",
      owner_display := "a" } none (by decide)

/-! ## Second-call idempotence toolkit

Pointwise characterizations of `seg`, the whitespace run, and the two
occurrence predicates, used to re-run the template and field searches on the
mutator's own output. -/

theorem seg_getElem? (l : List Char) (a b j : Nat) :
    (seg l a b)[j]? = if j < b - a then l[a + j]? else none := by
  unfold seg
  by_cases hj : j < b - a
  · rw [if_pos hj, List.getElem?_take_of_lt hj, List.getElem?_drop]
  · rw [if_neg hj]
    apply List.getElem?_eq_none
    have := List.length_take (b - a) (l.drop a)
    omega

theorem seg_congr (b₁ b₂ : List Char) (a b : Nat)
    (h : ∀ k, a ≤ k → k < b → b₁[k]? = b₂[k]?) : seg b₁ a b = seg b₂ a b := by
  apply List.ext_getElem?
  intro j
  rw [seg_getElem?, seg_getElem?]
  by_cases hj : j < b - a
  · rw [if_pos hj, if_pos hj]
    exact h (a + j) (by omega) (by omega)
  · rw [if_neg hj, if_neg hj]

theorem seg_singleton_iff (l : List Char) (q : Nat) (c : Char) :
    seg l q (q + 1) = [c] ↔ l[q]? = some c := by
  have hq1 : q + 1 - q = 1 := by omega
  constructor
  · intro h
    have h0 : (seg l q (q + 1))[0]? = some c := by rw [h]; rfl
    rw [seg_getElem?, hq1] at h0
    simpa using h0
  · intro h
    apply List.ext_getElem?
    intro j
    rw [seg_getElem?, hq1]
    cases j with
    | zero => simpa using h
    | succ j => simp

theorem seg_pair_iff (hay : List Char) (q : Nat) (a b : Char) :
    seg hay q (q + 2) = [a, b] ↔ (hay[q]? = some a ∧ hay[q + 1]? = some b) := by
  have hq2 : q + 2 - q = 2 := by omega
  constructor
  · intro h
    have h0 : (seg hay q (q + 2))[0]? = some a := by rw [h]; rfl
    have h1 : (seg hay q (q + 2))[1]? = some b := by rw [h]; rfl
    rw [seg_getElem?, hq2] at h0 h1
    constructor
    · simpa using h0
    · simpa using h1
  · rintro ⟨h0, h1⟩
    apply List.ext_getElem?
    intro j
    rw [seg_getElem?, hq2]
    match j with
    | 0 => simpa using h0
    | 1 => simpa using h1
    | n + 2 => simp

theorem occAt2_iff (hay : List Char) (q : Nat) (a b : Char) :
    occAt [a, b] hay q = true ↔ (hay[q]? = some a ∧ hay[q + 1]? = some b) := by
  unfold occAt
  rw [beq_iff_eq]
  exact seg_pair_iff hay q a b

theorem takeWhile_length_spec (p : Char → Bool) (l : List Char) :
    (∀ k, k < (l.takeWhile p).length → ∃ c, l[k]? = some c ∧ p c = true) ∧
    (l[(l.takeWhile p).length]? = none ∨
      ∃ c, l[(l.takeWhile p).length]? = some c ∧ p c = false) := by
  induction l with
  | nil => exact ⟨fun k hk => by simp at hk, Or.inl (by simp)⟩
  | cons a t ih =>
    by_cases hp : p a
    · rw [List.takeWhile_cons_of_pos hp]
      refine ⟨?_, ?_⟩
      · intro k hk
        cases k with
        | zero => exact ⟨a, by simp, hp⟩
        | succ k =>
          obtain ⟨c, hc, hpc⟩ := ih.1 k (by simpa using hk)
          exact ⟨c, by simpa using hc, hpc⟩
      · rcases ih.2 with h | ⟨c, hc, hpc⟩
        · exact Or.inl (by simpa using h)
        · exact Or.inr ⟨c, by simpa using hc, hpc⟩
    · rw [List.takeWhile_cons_of_neg hp]
      exact ⟨fun k hk => by simp at hk, Or.inr ⟨a, by simp, by simpa using hp⟩⟩

theorem takeWhile_length_intro (p : Char → Bool) (l : List Char) (r : Nat)
    (h1 : ∀ k, k < r → ∃ c, l[k]? = some c ∧ p c = true)
    (h2 : l[r]? = none ∨ ∃ c, l[r]? = some c ∧ p c = false) :
    (l.takeWhile p).length = r := by
  obtain ⟨hs1, hs2⟩ := takeWhile_length_spec p l
  rcases Nat.lt_trichotomy (l.takeWhile p).length r with h | h | h
  · obtain ⟨c, hc, hpc⟩ := h1 _ h
    rcases hs2 with hn | ⟨c', hc', hpc'⟩
    · rw [hn] at hc; exact absurd hc (by simp)
    · rw [hc'] at hc
      obtain rfl : c' = c := by simpa using hc
      rw [hpc] at hpc'
      exact absurd hpc' (by simp)
  · exact h
  · obtain ⟨c, hc, hpc⟩ := hs1 _ h
    rcases h2 with hn | ⟨c', hc', hpc'⟩
    · rw [hn] at hc; exact absurd hc (by simp)
    · rw [hc'] at hc
      obtain rfl : c' = c := by simpa using hc
      rw [hpc] at hpc'
      exact absurd hpc' (by simp)

theorem wsRunFrom_eq (l : List Char) (s : Nat) (r : Nat)
    (h1 : ∀ k, k < r → ∃ c, l[s + k]? = some c ∧ isPySpace c = true)
    (h2 : l[s + r]? = none ∨ ∃ c, l[s + r]? = some c ∧ isPySpace c = false) :
    wsRunFrom l s = r := by
  unfold wsRunFrom
  apply takeWhile_length_intro
  · intro k hk
    obtain ⟨c, hc, hpc⟩ := h1 k hk
    exact ⟨c, by rw [List.getElem?_drop]; exact hc, hpc⟩
  · rcases h2 with hn | ⟨c, hc, hpc⟩
    · exact Or.inl (by rw [List.getElem?_drop]; exact hn)
    · exact Or.inr ⟨c, by rw [List.getElem?_drop]; exact hc, hpc⟩

theorem wsRunFrom_spec (l : List Char) (s : Nat) :
    (∀ k, k < wsRunFrom l s → ∃ c, l[s + k]? = some c ∧ isPySpace c = true) ∧
    (l[s + wsRunFrom l s]? = none ∨
      ∃ c, l[s + wsRunFrom l s]? = some c ∧ isPySpace c = false) := by
  obtain ⟨hs1, hs2⟩ := takeWhile_length_spec isPySpace (l.drop s)
  constructor
  · intro k hk
    obtain ⟨c, hc, hpc⟩ := hs1 k hk
    rw [List.getElem?_drop] at hc
    exact ⟨c, hc, hpc⟩
  · rcases hs2 with hn | ⟨c, hc, hpc⟩
    · rw [List.getElem?_drop] at hn
      exact Or.inl hn
    · rw [List.getElem?_drop] at hc
      exact Or.inr ⟨c, hc, hpc⟩

theorem wsRunFrom_le_stop (l : List Char) (s i : Nat) (hs : s ≤ i)
    (hstop : ∃ c, l[i]? = some c ∧ isPySpace c = false) :
    wsRunFrom l s ≤ i - s := by
  by_contra hgt
  obtain ⟨c, hc, hpc⟩ := (wsRunFrom_spec l s).1 (i - s) (by omega)
  obtain ⟨c', hc', hpc'⟩ := hstop
  have : s + (i - s) = i := by omega
  rw [this, hc'] at hc
  obtain rfl : c = c' := by simpa using hc.symm
  rw [hpc] at hpc'
  exact absurd hpc' (by simp)

theorem wsRunFrom_congr (l₁ l₂ : List Char) (s i : Nat) (hs : s ≤ i)
    (hagree : ∀ k, k ≤ i → l₁[k]? = l₂[k]?)
    (hstop : ∃ c, l₁[i]? = some c ∧ isPySpace c = false) :
    wsRunFrom l₁ s = wsRunFrom l₂ s := by
  have hle := wsRunFrom_le_stop l₁ s i hs hstop
  obtain ⟨hs1, hs2⟩ := wsRunFrom_spec l₁ s
  apply (wsRunFrom_eq l₂ s (wsRunFrom l₁ s) ?_ ?_).symm
  · intro k hk
    obtain ⟨c, hc, hpc⟩ := hs1 k hk
    refine ⟨c, ?_, hpc⟩
    rw [← hagree (s + k) (by omega)]
    exact hc
  · rcases hs2 with hn | ⟨c, hc, hpc⟩
    · exact Or.inl (by rw [← hagree (s + wsRunFrom l₁ s) (by omega)]; exact hn)
    · exact Or.inr ⟨c, by rw [← hagree (s + wsRunFrom l₁ s) (by omega)]; exact hc, hpc⟩

theorem findFrom_none_intro :
    ∀ (f lo : Nat) (p : Nat → Bool), (∀ r, lo ≤ r → r ≤ lo + f → p r = false) →
      findFrom p lo f = none := by
  intro f
  induction f with
  | zero =>
    intro lo p h
    unfold findFrom
    rw [if_neg (by simp [h lo (le_refl _) (by omega)])]
  | succ f ih =>
    intro lo p h
    unfold findFrom
    rw [if_neg (by simp [h lo (le_refl _) (by omega)])]
    exact ih (lo + 1) p (fun r h1 h2 => h r (by omega) (by omega))


theorem takeWhile_body_close (body suf : List Char)
    (hhead : ∀ c, body.head? = some c → isPySpace c = false) :
    (body ++ CLOSE ++ suf).takeWhile isPySpace = [] := by
  cases body with
  | nil =>
    simp only [List.nil_append]
    rw [show CLOSE ++ suf = '\x7d' :: ('\x7d' :: suf) from rfl]
    rw [List.takeWhile_cons_of_neg (by decide)]
  | cons c t =>
    have hc := hhead c rfl
    rw [show (c :: t) ++ CLOSE ++ suf = c :: (t ++ CLOSE ++ suf) from by simp]
    rw [List.takeWhile_cons_of_neg (by simp [hc])]

theorem findTemplate_eq_of_findFrom (text : List Char) (p : Nat)
    (h1 : findFrom (occCIAt TLIT text) 0 text.length = some p) :
    findTemplate text
      = (let rest := text.drop (p + TLIT.length)
         let w := rest.takeWhile isPySpace
         let r := rest.drop w.length
         match findFrom (occAt CLOSE r) 0 r.length with
         | none => none
         | some e => some ⟨text.take p, seg text p (p + TLIT.length), w, r.take e,
             r.drop (e + 2)⟩) := by
  unfold findTemplate
  rw [h1]

theorem findTemplate_intro (pre lit ws body suf : List Char)
    (hlen : lit.length = TLIT.length)
    (hlit : ciEqL TLIT lit = true)
    (hmin : ∀ q, q < pre.length →
      occCIAt TLIT (pre ++ lit ++ ws ++ body ++ CLOSE ++ suf) q = false)
    (hws : ∀ c ∈ ws, isPySpace c = true)
    (hhead : ∀ c, body.head? = some c → isPySpace c = false)
    (hclose : ∀ q, q < body.length → occAt CLOSE (body ++ CLOSE ++ suf) q = false) :
    findTemplate (pre ++ lit ++ ws ++ body ++ CLOSE ++ suf)
      = some ⟨pre, lit, ws, body, suf⟩ := by
  set text := pre ++ lit ++ ws ++ body ++ CLOSE ++ suf with htext
  have htext2 : text = pre ++ (lit ++ (ws ++ (body ++ CLOSE ++ suf))) := by
    rw [htext]; simp [List.append_assoc]
  have hassoc : text = (pre ++ lit) ++ (ws ++ (body ++ CLOSE ++ suf)) := by
    rw [htext]; simp [List.append_assoc]
  have hseg : seg text pre.length (pre.length + TLIT.length) = lit := by
    unfold seg
    rw [htext2, List.drop_left]
    have harith : pre.length + TLIT.length - pre.length = TLIT.length := by omega
    rw [harith, ← hlen, List.take_left]
  have hocc : occCIAt TLIT text pre.length = true := by
    unfold occCIAt
    rw [hseg]
    exact hlit
  have hfind1 : findFrom (occCIAt TLIT text) 0 text.length = some pre.length := by
    apply findFrom_intro
    · exact hocc
    · omega
    · rw [htext]
      simp only [List.length_append]
      omega
    · intro r h1 h2
      exact hmin r h2
  have hrestEq : text.drop (pre.length + TLIT.length) = ws ++ (body ++ CLOSE ++ suf) := by
    rw [hassoc]
    have hl : (pre ++ lit).length = pre.length + TLIT.length := by
      rw [List.length_append, hlen]
    rw [List.drop_left' hl]
  have hzEq := takeWhile_body_close body suf hhead
  have hwEq : (text.drop (pre.length + TLIT.length)).takeWhile isPySpace = ws := by
    rw [hrestEq, List.takeWhile_append_of_pos hws, hzEq, List.append_nil]
  have hrEq : (text.drop (pre.length + TLIT.length)).drop ws.length
      = body ++ CLOSE ++ suf := by
    rw [hrestEq, List.drop_left]
  have hoccE : occAt CLOSE (body ++ CLOSE ++ suf) body.length = true := by
    unfold occAt
    have hseg2 : seg (body ++ CLOSE ++ suf) body.length (body.length + CLOSE.length)
        = CLOSE := by
      unfold seg
      rw [show body ++ CLOSE ++ suf = body ++ (CLOSE ++ suf) from by simp,
        List.drop_left]
      have harith : body.length + CLOSE.length - body.length = CLOSE.length := by omega
      rw [harith, List.take_left]
    rw [hseg2]
    exact beq_self_eq_true CLOSE
  have hfind2 : findFrom (occAt CLOSE (body ++ CLOSE ++ suf)) 0
      (body ++ CLOSE ++ suf).length = some body.length := by
    apply findFrom_intro
    · exact hoccE
    · omega
    · simp only [List.length_append]
      omega
    · intro r h1 h2
      exact hclose r h2
  have htake : text.take pre.length = pre := by
    rw [htext2, List.take_left]
  have htkb : (body ++ CLOSE ++ suf).take body.length = body := by
    rw [show body ++ CLOSE ++ suf = body ++ (CLOSE ++ suf) from by simp,
      List.take_left]
  have hdrp : (body ++ CLOSE ++ suf).drop (body.length + 2) = suf := by
    have hl : (body ++ CLOSE).length = body.length + 2 := by
      rw [List.length_append]; rfl
    rw [show body ++ CLOSE ++ suf = (body ++ CLOSE) ++ suf from by simp,
      List.drop_left' hl]
  rw [findTemplate_eq_of_findFrom text pre.length hfind1]
  simp only [hwEq, hrEq, hfind2, htake, hseg, htkb, hdrp]

/-- The lowercase images of regex word characters (`\w`, ASCII). -/
def lowWordChars : List Char :=
  "abcdefghijklmnopqrstuvwxyz0123456789_".data

/-- Regex word characters (`\w`, ASCII): the field names at all call sites of
`update_submission_field` are made of these, so the interpolated pattern
`\|NAME\s*=\s*[^\|]*` matches `NAME` literally. -/
def wordChars : List Char :=
  "abcdefghijklmnopqrstuvwxyzABCDEFGHIJKLMNOPQRSTUVWXYZ0123456789_".data

theorem wordChar_toLower : ∀ c ∈ wordChars, c.toLower ∈ lowWordChars := by decide

theorem isPySpace_cases {x : Char} (h : isPySpace x = true) :
    x = ' ' ∨ x = '\t' ∨ x = '\n' ∨ x = '\r' ∨ x = '\x0b' ∨ x = '\x0c' := by
  unfold isPySpace at h
  simp only [Bool.or_eq_true, decide_eq_true_eq] at h
  tauto

theorem lowWord_nonspace {x : Char} (h : x.toLower ∈ lowWordChars) :
    isPySpace x = false := by
  cases hx : isPySpace x
  · rfl
  · rcases isPySpace_cases hx with rfl | rfl | rfl | rfl | rfl | rfl <;>
      exact absurd h (by decide)

theorem lowWord_ne {x : Char} (h : x.toLower ∈ lowWordChars) :
    x ≠ '=' ∧ x ≠ '|' ∧ x ≠ '\x7d' ∧ x ≠ '\n' := by
  refine ⟨?_, ?_, ?_, ?_⟩ <;> rintro rfl <;> exact absurd h (by decide)

theorem ciEqL_elem {a b : List Char} (h : ciEqL a b = true) (j : Nat) {x y : Char}
    (ha : a[j]? = some x) (hb : b[j]? = some y) : x.toLower = y.toLower := by
  unfold ciEqL at h
  have h' := eq_of_beq h
  have h2 := congrArg (fun l => l[j]?) h'
  simp only [List.getElem?_map, ha, hb, Option.map_some'] at h2
  exact Option.some.inj h2

theorem ciEqL_word {name s : List Char} (hn : ∀ c ∈ name, c ∈ wordChars)
    (h : ciEqL name s = true) (j : Nat) {y : Char} (hy : s[j]? = some y) :
    y.toLower ∈ lowWordChars := by
  have hlen := ciEqL_length h
  have hjlt : j < s.length := by
    by_contra hc
    rw [List.getElem?_eq_none (by omega)] at hy
    exact absurd hy (by simp)
  have hx : name[j]? = some (name.get ⟨j, by omega⟩) := by
    rw [List.getElem?_eq_getElem (by omega)]
    rfl
  have hmem : name.get ⟨j, by omega⟩ ∈ name := List.get_mem name j (by omega)
  have hlow := wordChar_toLower _ (hn _ hmem)
  have := ciEqL_elem h j hx hy
  rw [← this]
  exact hlow

theorem ciEqL_refl (a : List Char) : ciEqL a a = true := by
  unfold ciEqL
  exact beq_self_eq_true _

theorem fieldHeadAt_iff (name body : List Char) (i : Nat) :
    fieldHeadAt name body i = true ↔
      body[i]? = some '|' ∧
      ciEqL name (seg body (i + 1) (i + 1 + name.length)) = true ∧
      body[eqPos body name i]? = some '=' := by
  unfold fieldHeadAt
  simp only [Bool.and_eq_true, beq_iff_eq]
  rw [seg_singleton_iff, seg_singleton_iff]
  tauto

theorem fieldHeadAt_false_of_ne (name b : List Char) (i : Nat)
    (h : b[i]? ≠ some '|') : fieldHeadAt name b i = false := by
  cases hf : fieldHeadAt name b i
  · rfl
  · exact absurd ((fieldHeadAt_iff name b i).mp hf).1 h

theorem pipeAt_false {body : List Char} {r : Nat} (h : body[r]? ≠ some '|') :
    (seg body r (r + 1) == ['|']) = false := by
  cases hp : (seg body r (r + 1) == ['|'])
  · rfl
  · exact absurd ((seg_singleton_iff body r '|').mp (eq_of_beq hp)) h

theorem fieldFind_intro (name body : List Char) (i : Nat)
    (hi : fieldHeadAt name body i = true)
    (hmin : ∀ q, q < i → fieldHeadAt name body q = false) :
    fieldFind name body = some i := by
  have hlt : i < body.length := by
    have h1 := ((fieldHeadAt_iff name body i).mp hi).1
    by_contra hc
    rw [List.getElem?_eq_none (by omega)] at h1
    exact absurd h1 (by simp)
  unfold fieldFind
  exact findFrom_intro _ _ _ _ hi (by omega) (by omega) (fun r h1 h2 => hmin r h2)

theorem fieldRegionEnd_some (name body : List Char) (i e : Nat)
    (hge : eqPos body name i + 1 ≤ e)
    (he : body[e]? = some '|')
    (hmin : ∀ r, eqPos body name i + 1 ≤ r → r < e → body[r]? ≠ some '|') :
    fieldRegionEnd name body i = e := by
  have hlt : e < body.length := by
    by_contra hc
    rw [List.getElem?_eq_none (by omega)] at he
    exact absurd he (by simp)
  have hp : (fun r => seg body r (r + 1) == ['|']) e = true := by
    show (seg body e (e + 1) == ['|']) = true
    exact beq_iff_eq.mpr ((seg_singleton_iff body e '|').mpr he)
  have hfe := findFrom_intro (body.length - (eqPos body name i + 1))
    (eqPos body name i + 1) e _ hp hge (by omega)
    (fun r h1 h2 => pipeAt_false (hmin r h1 h2))
  show (match findFrom (fun r => seg body r (r + 1) == ['|']) (eqPos body name i + 1)
      (body.length - (eqPos body name i + 1)) with
    | some e => e
    | none => body.length) = e
  rw [hfe]

theorem fieldRegionEnd_none (name body : List Char) (i : Nat)
    (hmin : ∀ r, eqPos body name i + 1 ≤ r → r < body.length → body[r]? ≠ some '|') :
    fieldRegionEnd name body i = body.length := by
  have hfe := findFrom_none_intro (body.length - (eqPos body name i + 1))
    (eqPos body name i + 1) (fun r => seg body r (r + 1) == ['|']) ?_
  · show (match findFrom (fun r => seg body r (r + 1) == ['|']) (eqPos body name i + 1)
        (body.length - (eqPos body name i + 1)) with
      | some e => e
      | none => body.length) = body.length
    rw [hfe]
  · intro r h1 h2
    by_cases hr : r < body.length
    · exact pipeAt_false (hmin r h1 hr)
    · apply pipeAt_false
      rw [List.getElem?_eq_none (by omega)]
      simp

theorem fieldRegionEnd_le (name body : List Char) (i : Nat) :
    fieldRegionEnd name body i ≤ body.length := by
  have hsh : fieldRegionEnd name body i
      = (match findFrom (fun r => seg body r (r + 1) == ['|']) (eqPos body name i + 1)
          (body.length - (eqPos body name i + 1)) with
        | some e => e
        | none => body.length) := rfl
  rw [hsh]
  cases h : findFrom (fun r => seg body r (r + 1) == ['|']) (eqPos body name i + 1)
      (body.length - (eqPos body name i + 1)) with
  | none =>
    show body.length ≤ body.length
    exact le_refl _
  | some e =>
    obtain ⟨hp, -, -, -⟩ := findFrom_some _ _ _ _ h
    have hpe := (seg_singleton_iff body e '|').mp (eq_of_beq hp)
    have helt : e < body.length := by
      by_contra hc
      rw [List.getElem?_eq_none (by omega)] at hpe
      exact absurd hpe (by simp)
    show e ≤ body.length
    omega

theorem fieldRegionEnd_cases (name body : List Char) (i : Nat) :
    (body[fieldRegionEnd name body i]? = some '|' ∧
      eqPos body name i + 1 ≤ fieldRegionEnd name body i ∧
      fieldRegionEnd name body i < body.length)
    ∨ fieldRegionEnd name body i = body.length := by
  have hsh : fieldRegionEnd name body i
      = (match findFrom (fun r => seg body r (r + 1) == ['|']) (eqPos body name i + 1)
          (body.length - (eqPos body name i + 1)) with
        | some e => e
        | none => body.length) := rfl
  rw [hsh]
  cases h : findFrom (fun r => seg body r (r + 1) == ['|']) (eqPos body name i + 1)
      (body.length - (eqPos body name i + 1)) with
  | none => exact Or.inr rfl
  | some e =>
    obtain ⟨hp, hlo, -, -⟩ := findFrom_some _ _ _ _ h
    have hpe := (seg_singleton_iff body e '|').mp (eq_of_beq hp)
    have helt : e < body.length := by
      by_contra hc
      rw [List.getElem?_eq_none (by omega)] at hpe
      exact absurd hpe (by simp)
    exact Or.inl ⟨hpe, hlo, helt⟩

theorem close_facts (body suf : List Char)
    (h : ∀ q, q < body.length → occAt CLOSE (body ++ CLOSE ++ suf) q = false) :
    (∀ q, q + 1 < body.length →
      ¬(body[q]? = some '\x7d' ∧ body[q + 1]? = some '\x7d')) ∧
    (∀ q, q + 1 = body.length → body[q]? ≠ some '\x7d') := by
  have hM : ∀ k, k < body.length → (body ++ CLOSE ++ suf)[k]? = body[k]? := by
    intro k hk
    rw [show body ++ CLOSE ++ suf = body ++ (CLOSE ++ suf) from by simp]
    exact List.getElem?_append_left hk
  have hMend : (body ++ CLOSE ++ suf)[body.length]? = some '\x7d' := by
    rw [show body ++ CLOSE ++ suf = body ++ (CLOSE ++ suf) from by simp]
    rw [List.getElem?_append_right (le_refl _)]
    have h0 : body.length - body.length = 0 := by omega
    rw [h0]
    rfl
  constructor
  · rintro q hq ⟨h1, h2⟩
    have htrue : occAt CLOSE (body ++ CLOSE ++ suf) q = true :=
      (occAt2_iff (body ++ CLOSE ++ suf) q '\x7d' '\x7d').mpr
        ⟨by rw [hM q (by omega)]; exact h1, by rw [hM (q + 1) (by omega)]; exact h2⟩
    have hfalse := h q (by omega)
    rw [htrue] at hfalse
    exact absurd hfalse (by simp)
  · intro q hq hc
    have htrue : occAt CLOSE (body ++ CLOSE ++ suf) q = true :=
      (occAt2_iff (body ++ CLOSE ++ suf) q '\x7d' '\x7d').mpr
        ⟨by rw [hM q (by omega)]; exact hc,
         by rw [show q + 1 = body.length from hq]; exact hMend⟩
    have hfalse := h q (by omega)
    rw [htrue] at hfalse
    exact absurd hfalse (by simp)

theorem close_min_glue (front pat back suf : List Char)
    (hpat : pat ≠ [])
    (hpatc : ∀ c ∈ pat, c ≠ '\x7d')
    (hfr : ∀ q, q + 1 < front.length →
      ¬(front[q]? = some '\x7d' ∧ front[q + 1]? = some '\x7d'))
    (hbk : ∀ q, q + 1 < back.length →
      ¬(back[q]? = some '\x7d' ∧ back[q + 1]? = some '\x7d'))
    (hbl : ∀ q, q + 1 = back.length → back[q]? ≠ some '\x7d') :
    ∀ p, p < (front ++ pat ++ back).length →
      occAt CLOSE ((front ++ pat ++ back) ++ CLOSE ++ suf) p = false := by
  intro p hp
  have hL2 : (front ++ pat ++ back) ++ CLOSE ++ suf
      = front ++ (pat ++ (back ++ (CLOSE ++ suf))) := by simp [List.append_assoc]
  have hlf : ∀ k, k < front.length →
      ((front ++ pat ++ back) ++ CLOSE ++ suf)[k]? = front[k]? := by
    intro k hk
    rw [hL2, List.getElem?_append_left hk]
  have hlp : ∀ k, k < pat.length →
      ((front ++ pat ++ back) ++ CLOSE ++ suf)[front.length + k]? = pat[k]? := by
    intro k hk
    rw [hL2, List.getElem?_append_right (by omega)]
    have h1 : front.length + k - front.length = k := by omega
    rw [h1, List.getElem?_append_left hk]
  have hlb : ∀ k, k < back.length →
      ((front ++ pat ++ back) ++ CLOSE ++ suf)[front.length + pat.length + k]?
        = back[k]? := by
    intro k hk
    rw [hL2, List.getElem?_append_right (by omega)]
    have h1 : front.length + pat.length + k - front.length = pat.length + k := by omega
    rw [h1, List.getElem?_append_right (by omega)]
    have h2 : pat.length + k - pat.length = k := by omega
    rw [h2, List.getElem?_append_left hk]
  have hplen2 : p < front.length + pat.length + back.length := by
    simp only [List.length_append] at hp
    omega
  have hpatpos : 0 < pat.length := List.length_pos.mpr hpat
  cases hocc : occAt CLOSE ((front ++ pat ++ back) ++ CLOSE ++ suf) p with
  | false => rfl
  | true =>
    exfalso
    obtain ⟨h1, h2⟩ :=
      (occAt2_iff ((front ++ pat ++ back) ++ CLOSE ++ suf) p '\x7d' '\x7d').mp hocc
    by_cases hA : p + 1 < front.length
    · exact hfr p hA
        ⟨by rw [← hlf p (by omega)]; exact h1, by rw [← hlf (p + 1) hA]; exact h2⟩
    · by_cases hB : p < front.length
      · have h2' : pat[0]? = some '\x7d' := by
          rw [← hlp 0 hpatpos, show front.length + 0 = p + 1 from by omega]
          exact h2
        exact hpatc _ (List.getElem?_mem h2') rfl
      · by_cases hC : p < front.length + pat.length
        · have h1' : pat[p - front.length]? = some '\x7d' := by
            rw [← hlp (p - front.length) (by omega),
              show front.length + (p - front.length) = p from by omega]
            exact h1
          exact hpatc _ (List.getElem?_mem h1') rfl
        · by_cases hD : p + 1 < front.length + pat.length + back.length
          · have h1' : back[p - front.length - pat.length]? = some '\x7d' := by
              rw [← hlb _ (by omega), show front.length + pat.length
                + (p - front.length - pat.length) = p from by omega]
              exact h1
            have h2' : back[p - front.length - pat.length + 1]? = some '\x7d' := by
              rw [← hlb _ (by omega), show front.length + pat.length
                + (p - front.length - pat.length + 1) = p + 1 from by omega]
              exact h2
            exact hbk _ (by omega) ⟨h1', h2'⟩
          · have h1' : back[p - front.length - pat.length]? = some '\x7d' := by
              rw [← hlb _ (by omega), show front.length + pat.length
                + (p - front.length - pat.length) = p from by omega]
              exact h1
            exact hbl _ (by omega) h1'

theorem fieldHead_min_transfer (name b₁ b₂ : List Char) (i j : Nat) (hij : i ≤ j)
    (hn : ∀ c ∈ name, c ∈ wordChars)
    (hagree : ∀ k, k < i → b₂[k]? = b₁[k]?)
    (hgap : ∀ k, i ≤ k → k < j → b₂[k]? = some '\n')
    (hj : b₂[j]? = some '|')
    (hb1 : ∀ q, q < i → fieldHeadAt name b₁ q = false) :
    ∀ q, q < i → fieldHeadAt name b₂ q = false := by
  intro q hq
  have hjlen : j < b₂.length := by
    by_contra hc
    rw [List.getElem?_eq_none (by omega)] at hj
    exact absurd hj (by simp)
  cases hfh : fieldHeadAt name b₂ q with
  | false => rfl
  | true =>
    exfalso
    obtain ⟨h1, h2, h3⟩ := (fieldHeadAt_iff name b₂ q).mp hfh
    unfold eqPos at h3
    by_cases hcross : i < q + 1 + name.length
    · -- the name segment covers position i, whose char is '\n' or '|'
      have hchar : b₂[i]? = some '\n' ∨ b₂[i]? = some '|' := by
        by_cases hij2 : i < j
        · exact Or.inl (hgap i (le_refl i) hij2)
        · have hieq : i = j := by omega
          exact Or.inr (by rw [hieq]; exact hj)
      have hidx : (seg b₂ (q + 1) (q + 1 + name.length))[i - (q + 1)]? = b₂[i]? := by
        rw [seg_getElem?]
        have harith : q + 1 + name.length - (q + 1) = name.length := by omega
        rw [harith, if_pos (by omega)]
        congr 1
        omega
      rcases hchar with hc | hc
      · have hlw := ciEqL_word hn h2 (i - (q + 1)) (by rw [hidx]; exact hc)
        exact absurd hlw (by decide)
      · have hlw := ciEqL_word hn h2 (i - (q + 1)) (by rw [hidx]; exact hc)
        exact absurd hlw (by decide)
    · -- the whole field head either stays below i, or its ws-run hits the barrier
      by_cases hstop : q + 1 + name.length + wsRunFrom b₂ (q + 1 + name.length) < i
      · -- transfer the match to b₁ and contradict its minimality
        have hstopc : ∃ c, b₂[q + 1 + name.length
            + wsRunFrom b₂ (q + 1 + name.length)]? = some c ∧ isPySpace c = false := by
          rcases (wsRunFrom_spec b₂ (q + 1 + name.length)).2 with hnone | hsome
          · exfalso
            rw [List.getElem?_eq_getElem (by omega)] at hnone
            exact absurd hnone (by simp)
          · exact hsome
        have hrun1 := wsRunFrom_congr b₂ b₁ (q + 1 + name.length)
          (q + 1 + name.length + wsRunFrom b₂ (q + 1 + name.length)) (by omega)
          (fun k hk => hagree k (by omega)) hstopc
        have hg1 : b₁[q]? = some '|' := by
          rw [← hagree q hq]
          exact h1
        have hg2 : ciEqL name (seg b₁ (q + 1) (q + 1 + name.length)) = true := by
          rw [← seg_congr b₂ b₁ (q + 1) (q + 1 + name.length)
            (fun k hk1 hk2 => hagree k (by omega))]
          exact h2
        have hg3 : b₁[eqPos b₁ name q]? = some '=' := by
          have heqp1 : eqPos b₁ name q = q + 1 + name.length
              + wsRunFrom b₂ (q + 1 + name.length) := by
            unfold eqPos
            rw [← hrun1]
          rw [heqp1, ← hagree _ (by omega)]
          exact h3
        have hb1t : fieldHeadAt name b₁ q = true :=
          (fieldHeadAt_iff name b₁ q).mpr ⟨hg1, hg2, hg3⟩
        rw [hb1 q hq] at hb1t
        exact absurd hb1t (by simp)
      · -- run reaches the barrier: it must stop exactly at j, where '=' fails
        have hle : q + 1 + name.length + wsRunFrom b₂ (q + 1 + name.length) ≤ j := by
          have := wsRunFrom_le_stop b₂ (q + 1 + name.length) j (by omega)
            ⟨'|', hj, by decide⟩
          omega
        have hge : ¬ (q + 1 + name.length + wsRunFrom b₂ (q + 1 + name.length) < j) := by
          intro hlt
          have hch : b₂[q + 1 + name.length + wsRunFrom b₂ (q + 1 + name.length)]?
              = some '\n' := hgap _ (by omega) hlt
          rcases (wsRunFrom_spec b₂ (q + 1 + name.length)).2 with hnone | ⟨c, hc, hpc⟩
          · rw [hnone] at hch
            exact absurd hch (by simp)
          · rw [hc] at hch
            obtain rfl : c = '\n' := by
              have := Option.some.inj hch
              exact this
            exact absurd hpc (by decide)
        have hjeq : q + 1 + name.length + wsRunFrom b₂ (q + 1 + name.length) = j := by
          omega
        rw [hjeq, hj] at h3
        exact absurd h3 (by simp)

theorem occCIAt_within (u x y : List Char) (q : Nat)
    (hq : q + TLIT.length ≤ u.length) :
    occCIAt TLIT (u ++ x) q = occCIAt TLIT (u ++ y) q := by
  unfold occCIAt
  rw [seg_append_left u x q _ hq, seg_append_left u y q _ hq]

theorem tlit_min_all (pre lit R S text : List Char)
    (hlen : lit.length = TLIT.length)
    (htext : text = (pre ++ lit) ++ R)
    (hmin : ∀ q, q < pre.length → occCIAt TLIT text q = false) :
    ∀ q, q < pre.length → occCIAt TLIT ((pre ++ lit) ++ S) q = false := by
  intro q hq
  rw [occCIAt_within (pre ++ lit) S R q (by rw [List.length_append, hlen]; omega),
    ← htext]
  exact hmin q hq

theorem head?_append_cases (front rest : List Char) (c : Char)
    (h : (front ++ rest).head? = some c) :
    front.head? = some c ∨ (front = [] ∧ rest.head? = some c) := by
  cases front with
  | nil => exact Or.inr ⟨rfl, by simpa using h⟩
  | cons a t => exact Or.inl (by simpa using h)

theorem rstripL_decomp (l : List Char) :
    ∃ t, l = rstripL l ++ t ∧ ∀ c ∈ t, isPySpace c = true := by
  refine ⟨(l.reverse.takeWhile isPySpace).reverse, ?_, ?_⟩
  · have h1 : l.reverse = l.reverse.takeWhile isPySpace ++ l.reverse.dropWhile isPySpace :=
      (List.takeWhile_append_dropWhile isPySpace l.reverse).symm
    have h2 := congrArg List.reverse h1
    rw [List.reverse_reverse, List.reverse_append] at h2
    exact h2
  · intro c hc
    rw [List.mem_reverse] at hc
    exact List.mem_takeWhile_imp hc

theorem head?_rstripL (l : List Char) (h : rstripL l ≠ []) :
    (rstripL l).head? = l.head? := by
  obtain ⟨t, hdec, -⟩ := rstripL_decomp l
  conv_rhs => rw [hdec]
  cases hrs : rstripL l with
  | nil => exact absurd hrs h
  | cons a s => simp

theorem rstripL_getLast_not_ws (l : List Char) (c : Char)
    (h : (rstripL l).getLast? = some c) : isPySpace c = false := by
  unfold rstripL at h
  rw [List.getLast?_reverse] at h
  exact head?_dropWhile_not isPySpace _ c h

theorem nb1_eq (body : List Char) :
    (if (rstripL body).getLast? = some '\n' then rstripL body
     else rstripL body ++ ['\n']) = rstripL body ++ ['\n'] := by
  rw [if_neg]
  intro h
  have hns := rstripL_getLast_not_ws body '\n' h
  exact absurd hns (by decide)

theorem rstripL_length_le (l : List Char) : (rstripL l).length ≤ l.length := by
  obtain ⟨t, hdec, -⟩ := rstripL_decomp l
  have := congrArg List.length hdec
  rw [List.length_append] at this
  omega

theorem rstripL_getElem? (l : List Char) (k : Nat) (hk : k < (rstripL l).length) :
    l[k]? = (rstripL l)[k]? := by
  obtain ⟨t, hdec, -⟩ := rstripL_decomp l
  conv_lhs => rw [hdec]
  exact List.getElem?_append_left hk

theorem patGet0 (name value : List Char) :
    ('|' :: (name ++ '=' :: value))[0]? = some '|' :=
  List.getElem?_cons_zero

theorem patGetName (name value : List Char) (j : Nat) (hj : j < name.length) :
    ('|' :: (name ++ '=' :: value))[j + 1]? = name[j]? := by
  rw [List.getElem?_cons_succ]
  exact List.getElem?_append_left hj

theorem patGetEq (name value : List Char) :
    ('|' :: (name ++ '=' :: value))[name.length + 1]? = some '=' := by
  rw [List.getElem?_cons_succ, List.getElem?_append_right (le_refl _)]
  have h0 : name.length - name.length = 0 := by omega
  rw [h0]
  exact List.getElem?_cons_zero

theorem patGetVal (name value : List Char) (m : Nat) (hm : m < value.length) :
    ('|' :: (name ++ '=' :: value))[name.length + 2 + m]? = value[m]? := by
  have hidx : name.length + 2 + m = (name.length + 1 + m) + 1 := by omega
  rw [hidx]
  rw [List.getElem?_cons_succ, List.getElem?_append_right (by omega)]
  have h1 : name.length + 1 + m - name.length = m + 1 := by omega
  rw [h1]
  exact List.getElem?_cons_succ

theorem glueGetF (front mid back : List Char) (k : Nat) (hk : k < front.length) :
    (front ++ mid ++ back)[k]? = front[k]? := by
  rw [show front ++ mid ++ back = front ++ (mid ++ back) from by simp]
  exact List.getElem?_append_left hk

theorem glueGet (front mid back : List Char) (k : Nat) (hk : k < mid.length) :
    (front ++ mid ++ back)[front.length + k]? = mid[k]? := by
  rw [show front ++ mid ++ back = front ++ (mid ++ back) from by simp,
    List.getElem?_append_right (by omega)]
  have h1 : front.length + k - front.length = k := by omega
  rw [h1]
  exact List.getElem?_append_left hk

theorem glueGetB (front mid back : List Char) (k : Nat) (hk : k < back.length) :
    (front ++ mid ++ back)[front.length + mid.length + k]? = back[k]? := by
  rw [show front ++ mid ++ back = front ++ (mid ++ back) from by simp,
    List.getElem?_append_right (by omega)]
  have h1 : front.length + mid.length + k - front.length = mid.length + k := by omega
  rw [h1, List.getElem?_append_right (by omega)]
  have h2 : mid.length + k - mid.length = k := by omega
  rw [h2]

/-- After a write has put the canonical `|name=value` into the template body
(`front` before it, `back` after it), a second call of the mutator with the
same arguments finds the template again, matches the freshly written field and
reports `changed=false` on the syntactically identical text. -/
theorem secondCall_master (pre lit ws2 front back suf name value : List Char)
    (hlen : lit.length = TLIT.length)
    (hlit : ciEqL TLIT lit = true)
    (hminT : ∀ q, q < pre.length →
      occCIAt TLIT (pre ++ lit ++ ws2 ++ (front ++ ('|' :: (name ++ '=' :: value)) ++ back)
        ++ CLOSE ++ suf) q = false)
    (hws2 : ∀ c ∈ ws2, isPySpace c = true)
    (hheadF : ∀ c, front.head? = some c → isPySpace c = false)
    (hcm : ∀ q, q < (front ++ ('|' :: (name ++ '=' :: value)) ++ back).length →
      occAt CLOSE ((front ++ ('|' :: (name ++ '=' :: value)) ++ back) ++ CLOSE ++ suf) q
        = false)
    (hminf : ∀ q, q < front.length →
      fieldHeadAt name (front ++ ('|' :: (name ++ '=' :: value)) ++ back) q = false)
    (hv : ∀ c ∈ value, c ≠ '|')
    (hback : (∃ t, back = '|' :: t) ∨ (∀ c ∈ back, isPySpace c = true ∧ c ≠ '|')) :
    updateSubmissionField
        (pre ++ lit ++ ws2 ++ (front ++ ('|' :: (name ++ '=' :: value)) ++ back)
          ++ CLOSE ++ suf) name value
      = Except.ok
        (pre ++ lit ++ ws2 ++ (front ++ ('|' :: (name ++ '=' :: value)) ++ back)
          ++ CLOSE ++ suf, false) := by
  have hplen : ('|' :: (name ++ '=' :: value)).length = name.length + 2 + value.length := by
    simp only [List.length_cons, List.length_append]
    omega
  have hhead2 : ∀ c, (front ++ ('|' :: (name ++ '=' :: value)) ++ back).head? = some c →
      isPySpace c = false := by
    intro c hc
    rw [show front ++ ('|' :: (name ++ '=' :: value)) ++ back
      = front ++ (('|' :: (name ++ '=' :: value)) ++ back) from by simp] at hc
    rcases head?_append_cases _ _ _ hc with hf | ⟨hfe, hr⟩
    · exact hheadF c hf
    · have hcp : c = '|' := by
        have hh : (('|' :: (name ++ '=' :: value)) ++ back).head? = some '|' := rfl
        rw [hh] at hr
        exact (Option.some.inj hr).symm
      rw [hcp]
      decide
  have hft : findTemplate (pre ++ lit ++ ws2
      ++ (front ++ ('|' :: (name ++ '=' :: value)) ++ back) ++ CLOSE ++ suf)
      = some ⟨pre, lit, ws2, front ++ ('|' :: (name ++ '=' :: value)) ++ back, suf⟩ :=
    findTemplate_intro pre lit ws2 _ suf hlen hlit hminT hws2 hhead2 hcm
  have hb2pipe : (front ++ ('|' :: (name ++ '=' :: value)) ++ back)[front.length]?
      = some '|' := by
    have hg := glueGet front ('|' :: (name ++ '=' :: value)) back 0 (by rw [hplen]; omega)
    rw [show front.length + 0 = front.length from by omega] at hg
    exact hg.trans (patGet0 name value)
  have hsegname : seg (front ++ ('|' :: (name ++ '=' :: value)) ++ back)
      (front.length + 1) (front.length + 1 + name.length) = name := by
    apply List.ext_getElem?
    intro jj
    rw [seg_getElem?]
    have harith : front.length + 1 + name.length - (front.length + 1) = name.length := by
      omega
    rw [harith]
    by_cases hj : jj < name.length
    · rw [if_pos hj]
      have hidx : front.length + 1 + jj = front.length + (jj + 1) := by omega
      rw [hidx, glueGet front _ back (jj + 1) (by rw [hplen]; omega),
        patGetName name value jj hj]
    · rw [if_neg hj]
      exact (List.getElem?_eq_none (by omega)).symm
  have hrun0 : wsRunFrom (front ++ ('|' :: (name ++ '=' :: value)) ++ back)
      (front.length + 1 + name.length) = 0 := by
    apply wsRunFrom_eq
    · intro k hk
      exact absurd hk (by omega)
    · refine Or.inr ⟨'=', ?_, by decide⟩
      have hidx : front.length + 1 + name.length + 0 = front.length + (name.length + 1) := by
        omega
      rw [hidx, glueGet front _ back (name.length + 1) (by rw [hplen]; omega),
        patGetEq name value]
  have heqp : eqPos (front ++ ('|' :: (name ++ '=' :: value)) ++ back) name front.length
      = front.length + 1 + name.length := by
    unfold eqPos
    rw [hrun0]
    omega
  have hhd : fieldHeadAt name (front ++ ('|' :: (name ++ '=' :: value)) ++ back)
      front.length = true := by
    rw [fieldHeadAt_iff]
    refine ⟨hb2pipe, ?_, ?_⟩
    · rw [hsegname]
      exact ciEqL_refl name
    · rw [heqp]
      have hidx : front.length + 1 + name.length = front.length + (name.length + 1) := by
        omega
      rw [hidx, glueGet front _ back (name.length + 1) (by rw [hplen]; omega),
        patGetEq name value]
  have hff : fieldFind name (front ++ ('|' :: (name ++ '=' :: value)) ++ back)
      = some front.length := fieldFind_intro _ _ _ hhd hminf
  rw [updateSubmissionField_eq_ok hft]
  rcases hback with ⟨t, hbeq⟩ | hall
  · have hend : fieldRegionEnd name (front ++ ('|' :: (name ++ '=' :: value)) ++ back)
        front.length = front.length + ('|' :: (name ++ '=' :: value)).length := by
      apply fieldRegionEnd_some
      · rw [heqp, hplen]
        omega
      · have hg := glueGetB front ('|' :: (name ++ '=' :: value)) back 0
          (by rw [hbeq]; simp)
        rw [show front.length + ('|' :: (name ++ '=' :: value)).length + 0
          = front.length + ('|' :: (name ++ '=' :: value)).length from by omega] at hg
        rw [hg, hbeq]
        exact List.getElem?_cons_zero
      · intro r h1 h2
        rw [heqp] at h1
        have hm : r - front.length - (name.length + 2) < value.length := by
          rw [hplen] at h2
          omega
        have hidx : r = front.length
            + (name.length + 2 + (r - front.length - (name.length + 2))) := by
          rw [hplen] at h2
          omega
        rw [hidx, glueGet front _ back _ (by rw [hplen]; omega),
          patGetVal name value _ hm]
        intro hcon
        exact hv _ (List.getElem?_mem hcon) rfl
    have holdv : seg (front ++ ('|' :: (name ++ '=' :: value)) ++ back) front.length
        (front.length + ('|' :: (name ++ '=' :: value)).length)
        = '|' :: (name ++ '=' :: value) := by
      unfold seg
      rw [show front ++ ('|' :: (name ++ '=' :: value)) ++ back
        = front ++ (('|' :: (name ++ '=' :: value)) ++ back) from by simp,
        List.drop_left]
      have harith : front.length + ('|' :: (name ++ '=' :: value)).length - front.length
          = ('|' :: (name ++ '=' :: value)).length := by omega
      rw [harith, List.take_left]
    have heqq : stripL (seg (front ++ ('|' :: (name ++ '=' :: value)) ++ back)
        front.length (fieldRegionEnd name
          (front ++ ('|' :: (name ++ '=' :: value)) ++ back) front.length))
        = stripL ('|' :: (name ++ '=' :: value)) := by
      rw [hend, holdv]
    have hsame := @updateFieldInTemplate_found_same
      (pre ++ lit ++ ws2 ++ (front ++ ('|' :: (name ++ '=' :: value)) ++ back)
        ++ CLOSE ++ suf)
      name value
      ⟨pre, lit, ws2, front ++ ('|' :: (name ++ '=' :: value)) ++ back, suf⟩
      front.length hff heqq
    rw [hsame]
  · have hend : fieldRegionEnd name (front ++ ('|' :: (name ++ '=' :: value)) ++ back)
        front.length = (front ++ ('|' :: (name ++ '=' :: value)) ++ back).length := by
      apply fieldRegionEnd_none
      intro r h1 h2
      rw [heqp] at h1
      by_cases hrv : r < front.length + ('|' :: (name ++ '=' :: value)).length
      · have hm : r - front.length - (name.length + 2) < value.length := by
          rw [hplen] at hrv
          omega
        have hidx : r = front.length
            + (name.length + 2 + (r - front.length - (name.length + 2))) := by
          rw [hplen] at hrv
          omega
        rw [hidx, glueGet front _ back _ (by rw [hplen]; omega),
          patGetVal name value _ hm]
        intro hcon
        exact hv _ (List.getElem?_mem hcon) rfl
      · have hk : r - front.length - ('|' :: (name ++ '=' :: value)).length
            < back.length := by
          simp only [List.length_append] at h2
          omega
        have hidx : r = front.length + ('|' :: (name ++ '=' :: value)).length
            + (r - front.length - ('|' :: (name ++ '=' :: value)).length) := by
          omega
        rw [hidx, glueGetB front _ back _ hk]
        intro hcon
        exact (hall _ (List.getElem?_mem hcon)).2 rfl
    have holdv : seg (front ++ ('|' :: (name ++ '=' :: value)) ++ back) front.length
        (front ++ ('|' :: (name ++ '=' :: value)) ++ back).length
        = ('|' :: (name ++ '=' :: value)) ++ back := by
      unfold seg
      rw [show front ++ ('|' :: (name ++ '=' :: value)) ++ back
        = front ++ (('|' :: (name ++ '=' :: value)) ++ back) from by simp,
        List.drop_left]
      apply List.take_of_length_le
      simp only [List.length_append]
      omega
    have heqq : stripL (seg (front ++ ('|' :: (name ++ '=' :: value)) ++ back)
        front.length (fieldRegionEnd name
          (front ++ ('|' :: (name ++ '=' :: value)) ++ back) front.length))
        = stripL ('|' :: (name ++ '=' :: value)) := by
      rw [hend, holdv]
      unfold stripL
      rw [rstripL_append_ws _ back (fun c hc => (hall c hc).1)]
    have hsame := @updateFieldInTemplate_found_same
      (pre ++ lit ++ ws2 ++ (front ++ ('|' :: (name ++ '=' :: value)) ++ back)
        ++ CLOSE ++ suf)
      name value
      ⟨pre, lit, ws2, front ++ ('|' :: (name ++ '=' :: value)) ++ back, suf⟩
      front.length hff heqq
    rw [hsame]

theorem pat_no_close (name value : List Char)
    (hn : ∀ c ∈ name, c ∈ wordChars) (hv : ∀ c ∈ value, c ≠ '\x7d') :
    ∀ c ∈ '|' :: (name ++ '=' :: value), c ≠ '\x7d' := by
  intro c hc
  rcases List.mem_cons.mp hc with rfl | hc2
  · decide
  rcases List.mem_append.mp hc2 with hcn | hcv
  · exact (lowWord_ne (wordChar_toLower c (hn c hcn))).2.2.1
  rcases List.mem_cons.mp hcv with rfl | hcv2
  · decide
  · exact hv c hcv2

/-- C6 (amended).  For a field name made of word characters (as at every call
site) and a value containing neither `|` nor the closing-brace character,
`update_submission_field` is idempotent: a second call with the same
field/value on the first call's output returns that text unchanged with
`changed=false`.  (For values containing `|` or a brace the second call can
rewrite again; see the counterexample.) -/
theorem C6_second_write_noop (text name value out : List Char) (ch : Bool)
    (hn : ∀ c ∈ name, c ∈ wordChars)
    (hv : ∀ c ∈ value, c ≠ '|' ∧ c ≠ '\x7d')
    (h1 : updateSubmissionField text name value = Except.ok (out, ch)) :
    updateSubmissionField out name value = Except.ok (out, false) := by
  have hv1 : ∀ c ∈ value, c ≠ '|' := fun c hc => (hv c hc).1
  have hv2 : ∀ c ∈ value, c ≠ '\x7d' := fun c hc => (hv c hc).2
  have hpatc := pat_no_close name value hn hv2
  cases hft : findTemplate text with
  | none =>
    unfold updateSubmissionField at h1
    rw [hft] at h1
    simp at h1
  | some tp =>
    obtain ⟨hdec, hlitlen, hlit, hws, hhead, hminT, hclose⟩ := findTemplate_sound hft
    obtain ⟨hnc, hlast⟩ := close_facts tp.body tp.suf hclose
    rw [updateSubmissionField_eq_ok hft] at h1
    have hpair : updateFieldInTemplate text name value tp = (out, ch) :=
      Except.ok.inj h1
    cases hf : fieldFind name tp.body with
    | some i =>
      have hf' := hf
      unfold fieldFind at hf'
      obtain ⟨hhd_i, -, hi_le, hmin_i⟩ := findFrom_some _ _ _ _ hf'
      by_cases hceq : stripL (seg tp.body i (fieldRegionEnd name tp.body i))
          = stripL ('|' :: (name ++ '=' :: value))
      · -- the first call already reported no change
        rw [updateFieldInTemplate_found_same hf hceq] at hpair
        have hout : text = out := congrArg Prod.fst hpair
        rw [← hout, updateSubmissionField_eq_ok hft,
          updateFieldInTemplate_found_same hf hceq]
      · -- the first call replaced the matched region in place
        rw [updateFieldInTemplate_found_changed hf hceq] at hpair
        have hout : out = tp.pre ++ tp.lit ++ tp.ws
            ++ (tp.body.take i ++ ('|' :: (name ++ '=' :: value))
              ++ tp.body.drop (fieldRegionEnd name tp.body i)) ++ CLOSE ++ tp.suf :=
          (congrArg Prod.fst hpair).symm
        have hi_lt : i < tp.body.length := by
          have hp1 := ((fieldHeadAt_iff name tp.body i).mp hhd_i).1
          by_contra hcl
          rw [List.getElem?_eq_none (by omega)] at hp1
          exact absurd hp1 (by simp)
        have he_le := fieldRegionEnd_le name tp.body i
        rw [hout]
        apply secondCall_master
        · exact hlitlen
        · exact hlit
        · -- opening-literal minimality transfers: the probed window stays in pre ++ lit
          intro q hq
          have hsh : tp.pre ++ tp.lit ++ tp.ws
              ++ (tp.body.take i ++ ('|' :: (name ++ '=' :: value))
                ++ tp.body.drop (fieldRegionEnd name tp.body i)) ++ CLOSE ++ tp.suf
              = (tp.pre ++ tp.lit) ++ (tp.ws
                ++ ((tp.body.take i ++ ('|' :: (name ++ '=' :: value))
                  ++ tp.body.drop (fieldRegionEnd name tp.body i))
                  ++ (CLOSE ++ tp.suf))) := by
            simp [List.append_assoc]
          rw [hsh]
          exact tlit_min_all tp.pre tp.lit (tp.ws ++ (tp.body ++ (CLOSE ++ tp.suf))) _
            text hlitlen (by rw [hdec]; simp [List.append_assoc]) hminT q hq
        · exact hws
        · -- head of the new body is the head of the old one (or the written pipe)
          intro c hcc
          by_cases h0 : 0 < i
          · rw [head?_take_of_pos h0] at hcc
            exact hhead c hcc
          · have hi0 : i = 0 := by omega
            rw [hi0] at hcc
            simp at hcc
        · -- no early closing marker in the rewritten body
          apply close_min_glue
          · simp
          · exact hpatc
          · rintro q hq ⟨ha, hb2⟩
            rw [List.length_take] at hq
            rw [List.getElem?_take_of_lt (by omega)] at ha
            rw [List.getElem?_take_of_lt (by omega)] at hb2
            exact hnc q (by omega) ⟨ha, hb2⟩
          · rintro q hq ⟨ha, hb2⟩
            rw [List.getElem?_drop] at ha
            rw [List.getElem?_drop] at hb2
            rw [show fieldRegionEnd name tp.body i + (q + 1)
              = (fieldRegionEnd name tp.body i + q) + 1 from by omega] at hb2
            rw [List.length_drop] at hq
            exact hnc (fieldRegionEnd name tp.body i + q) (by omega) ⟨ha, hb2⟩
          · intro q hq hcon
            rw [List.getElem?_drop] at hcon
            rw [List.length_drop] at hq
            exact hlast (fieldRegionEnd name tp.body i + q) (by omega) hcon
        · -- earlier field-head probes still fail on the rewritten body
          intro q hq
          rw [List.length_take] at hq
          refine fieldHead_min_transfer name tp.body _ i i (le_refl i) hn ?_ ?_ ?_
            (fun r hr => hmin_i r (by omega) hr) q (by omega)
          · intro k hk
            rw [glueGetF _ _ _ k (by rw [List.length_take]; omega)]
            exact List.getElem?_take_of_lt (by omega)
          · intro k hk1 hk2
            exact absurd hk2 (by omega)
          · have hfl : (tp.body.take i).length = i := by
              rw [List.length_take]
              omega
            have hg := glueGet (tp.body.take i) ('|' :: (name ++ '=' :: value))
              (tp.body.drop (fieldRegionEnd name tp.body i)) 0 (by simp)
            rw [show (tp.body.take i).length + 0 = (tp.body.take i).length from by omega,
              hfl] at hg
            exact hg.trans (patGet0 name value)
        · exact hv1
        · -- what follows the written field: the old pipe-led tail, or nothing
          rcases fieldRegionEnd_cases name tp.body i with ⟨hpe, -, helt⟩ | heql
          · left
            refine ⟨tp.body.drop (fieldRegionEnd name tp.body i + 1), ?_⟩
            have hchar : tp.body[fieldRegionEnd name tp.body i] = '|' := by
              have h2 := List.getElem?_eq_getElem helt
              rw [hpe] at h2
              exact (Option.some.inj h2).symm
            rw [List.drop_eq_getElem_cons helt, hchar]
          · right
            intro c hc
            rw [heql, List.drop_length] at hc
            simp at hc
    | none =>
      have hf' := hf
      unfold fieldFind at hf'
      have hnone := findFrom_none _ _ _ hf'
      rw [updateFieldInTemplate_append hf] at hpair
      have hout : out = tp.pre ++ tp.lit ++ tp.ws
          ++ ((if (rstripL tp.body).getLast? = some '\n' then rstripL tp.body
               else rstripL tp.body ++ ['\n'])
            ++ ('|' :: (name ++ '=' :: value)) ++ ['\n']) ++ CLOSE ++ tp.suf :=
        (congrArg Prod.fst hpair).symm
      rw [nb1_eq] at hout
      by_cases hrs : rstripL tp.body = []
      · -- the whole old body was whitespace: it merges into the template's gap
        have hout2 : out = tp.pre ++ tp.lit ++ (tp.ws ++ ['\n'])
            ++ (([] : List Char) ++ ('|' :: (name ++ '=' :: value)) ++ ['\n'])
            ++ CLOSE ++ tp.suf := by
          rw [hout, hrs]
          simp [List.append_assoc]
        rw [hout2]
        apply secondCall_master
        · exact hlitlen
        · exact hlit
        · intro q hq
          have hsh : tp.pre ++ tp.lit ++ (tp.ws ++ ['\n'])
              ++ (([] : List Char) ++ ('|' :: (name ++ '=' :: value)) ++ ['\n'])
              ++ CLOSE ++ tp.suf
              = (tp.pre ++ tp.lit) ++ ((tp.ws ++ ['\n'])
                ++ ((([] : List Char) ++ ('|' :: (name ++ '=' :: value)) ++ ['\n'])
                  ++ (CLOSE ++ tp.suf))) := by
            simp [List.append_assoc]
          rw [hsh]
          exact tlit_min_all tp.pre tp.lit (tp.ws ++ (tp.body ++ (CLOSE ++ tp.suf))) _
            text hlitlen (by rw [hdec]; simp [List.append_assoc]) hminT q hq
        · intro c hc
          rcases List.mem_append.mp hc with h | h
          · exact hws c h
          · obtain rfl := List.mem_singleton.mp h
            decide
        · intro c hc
          simp at hc
        · apply close_min_glue
          · simp
          · exact hpatc
          · intro q hq
            simp at hq
          · rintro q hq ⟨-, -⟩
            simp at hq
          · intro q hq hcon
            have hq0 : q = 0 := by simpa using hq
            rw [hq0] at hcon
            exact absurd hcon (by decide)
        · intro q hq
          simp at hq
        · exact hv1
        · right
          intro c hc
          obtain rfl := List.mem_singleton.mp hc
          exact ⟨by decide, by decide⟩
      · -- the old body survives (right-stripped) before the appended line
        rw [hout]
        apply secondCall_master
        · exact hlitlen
        · exact hlit
        · intro q hq
          have hsh : tp.pre ++ tp.lit ++ tp.ws
              ++ ((rstripL tp.body ++ ['\n']) ++ ('|' :: (name ++ '=' :: value)) ++ ['\n'])
              ++ CLOSE ++ tp.suf
              = (tp.pre ++ tp.lit) ++ (tp.ws
                ++ (((rstripL tp.body ++ ['\n']) ++ ('|' :: (name ++ '=' :: value))
                  ++ ['\n']) ++ (CLOSE ++ tp.suf))) := by
            simp [List.append_assoc]
          rw [hsh]
          exact tlit_min_all tp.pre tp.lit (tp.ws ++ (tp.body ++ (CLOSE ++ tp.suf))) _
            text hlitlen (by rw [hdec]; simp [List.append_assoc]) hminT q hq
        · exact hws
        · intro c hc
          rcases head?_append_cases _ _ _ hc with h | ⟨he, -⟩
          · rw [head?_rstripL tp.body hrs] at h
            exact hhead c h
          · exact absurd he hrs
        · apply close_min_glue
          · simp
          · exact hpatc
          · rintro q hq ⟨ha, hb2⟩
            rw [show (rstripL tp.body ++ ['\n']).length = (rstripL tp.body).length + 1
              from by simp] at hq
            by_cases hq2 : q + 1 < (rstripL tp.body).length
            · rw [List.getElem?_append_left (by omega)] at ha
              rw [List.getElem?_append_left hq2] at hb2
              rw [← rstripL_getElem? tp.body q (by omega)] at ha
              rw [← rstripL_getElem? tp.body (q + 1) hq2] at hb2
              exact hnc q (by have := rstripL_length_le tp.body; omega) ⟨ha, hb2⟩
            · rw [List.getElem?_append_right (by omega)] at hb2
              rw [show q + 1 - (rstripL tp.body).length = 0 from by omega] at hb2
              exact absurd hb2 (by decide)
          · rintro q hq ⟨-, -⟩
            simp at hq
          · intro q hq hcon
            have hq0 : q = 0 := by simpa using hq
            rw [hq0] at hcon
            exact absurd hcon (by decide)
        · intro q hq
          rw [show (rstripL tp.body ++ ['\n']).length = (rstripL tp.body).length + 1
            from by simp] at hq
          by_cases hql : q < (rstripL tp.body).length
          · refine fieldHead_min_transfer name tp.body _ (rstripL tp.body).length
              ((rstripL tp.body).length + 1) (by omega) hn ?_ ?_ ?_ ?_ q hql
            · intro k hk
              rw [glueGetF _ _ _ k (by simp; omega)]
              rw [List.getElem?_append_left hk]
              exact (rstripL_getElem? tp.body k hk).symm
            · intro k hk1 hk2
              have hke : k = (rstripL tp.body).length := by omega
              rw [hke, glueGetF _ _ _ _ (by simp)]
              rw [List.getElem?_append_right (le_refl _)]
              rw [show (rstripL tp.body).length - (rstripL tp.body).length = 0
                from by omega]
              exact List.getElem?_cons_zero
            · have hg := glueGet (rstripL tp.body ++ ['\n'])
                ('|' :: (name ++ '=' :: value)) ['\n'] 0 (by simp)
              rw [show (rstripL tp.body ++ ['\n']).length + 0
                = (rstripL tp.body).length + 1 from by simp] at hg
              exact hg.trans (patGet0 name value)
            · intro r hr
              exact hnone r (by omega) (by have := rstripL_length_le tp.body; omega)
          · have hqe : q = (rstripL tp.body).length := by omega
            apply fieldHeadAt_false_of_ne
            rw [hqe, glueGetF _ _ _ _ (by simp)]
            rw [List.getElem?_append_right (le_refl _)]
            rw [show (rstripL tp.body).length - (rstripL tp.body).length = 0
              from by omega]
            decide
        · exact hv1
        · right
          intro c hc
          obtain rfl := List.mem_singleton.mp hc
          exact ⟨by decide, by decide⟩

/-- The concrete page of the C6 witness. -/
def textC6w : List Char :=
  "\x7b\x7bBlue Railroad Submission\n|video=xyz\n\x7d\x7d".data

/-- C6 (witness). -/
theorem C6_second_write_noop_witness :
    updateSubmissionField textC6w "video".data "xyz".data
      = Except.ok (textC6w, false) :=
  C6_second_write_noop textC6w "video".data "xyz".data textC6w false
    (by decide) (by decide) (by rfl)

/-- The input of the C6 counterexample. -/
def textC6ce : List Char :=
  "\x7b\x7bBlue Railroad Submission\n\x7d\x7d".data

/-- The first call's output on `textC6ce` for field `foo`, value `a|b`. -/
def outC6ce : List Char :=
  "\x7b\x7bBlue Railroad Submission\n\n|foo=a|b\n\x7d\x7d".data

/-- The second call's output: it rewrites again instead of reporting
`changed=false`. -/
def outC6ce2 : List Char :=
  "\x7b\x7bBlue Railroad Submission\n\n|foo=a|b|b\n\x7d\x7d".data

/-- C6 (counterexample).  With the value `a|b` the second identical call does
not leave the text unchanged: the `[^\|]*` value region of the field pattern
stops at the `|` inside the previously written value, so the comparison fails
and the tail `|b` is appended again, with `changed=true`. -/
theorem C6_counterexample :
    updateSubmissionField textC6ce "foo".data "a|b".data
      = Except.ok (outC6ce, true) ∧
    updateSubmissionField outC6ce "foo".data "a|b".data
      = Except.ok (outC6ce2, true) ∧
    outC6ce2 ≠ outC6ce :=
  ⟨by rfl, by rfl, by decide⟩
